import Mathlib

/-!
The Ruby adapter `rpatricia` over the Patricia trie.

The adapter functions of `ext/rpatricia/rpatricia.c` (`p_add`, `p_remove`, `p_match`,
`p_match_exact`, `p_num_nodes`, `p_print_nodes`, `p_data`, `p_destroy`, `p_tree_free`,
`p_new`, `Init_rpatricia`) are embedded from the C source.  The trie engine they call
(`ascii2prefix`, `patricia_lookup`, `patricia_search_exact`, `patricia_search_best`,
`patricia_remove`, `patricia_walk_inorder`, `PATRICIA_WALK`, `prefix_toa2x`) lives in
`patricia.c` / `patricia.h`; those definitions are modelled from the specification and are
marked as such.
-/

namespace Rpatricia

/-! ## Prefix -/

/-- Modelled from the spec: the `Prefix` record of §3 (`prefix_t` of the absent `patricia.h`).
`bits` is the 4-byte address buffer read as one big-endian 32-bit number, `bitlen` the mask
length. -/
structure Prefix where
  bits : Nat
  bitlen : Nat
deriving DecidableEq, Repr

/-- Modelled from the spec: `bit_at(prefix, index)` of §4.1 on the address buffer, bit 0 being
the most significant bit of the first byte. -/
def bitAt (addr : Nat) (i : Nat) : Bool := Nat.testBit addr (31 - i)

/-- Modelled from the spec: "the first `n` bits of `bits` match" (§3 invariant of `Prefix`). -/
def agree (a b n : Nat) : Prop := ∀ i, i < n → bitAt a i = bitAt b i

instance (a b n : Nat) : Decidable (agree a b n) := by
  unfold agree; exact Nat.decidableBallLT n _

/-- Modelled from the spec: prefix equality of §3, "two prefixes are equal iff `bitlen` matches
and the first `bitlen` bits of `bits` match; bits beyond `bitlen` are never compared". -/
def prefix_equal (p q : Prefix) : Bool :=
  decide (p.bitlen = q.bitlen) && decide (agree p.bits q.bits p.bitlen)

/-- Modelled from the spec: "`p` is an actual prefix of (or equal to) the query key" (§4.3). -/
def is_prefix_of (p q : Prefix) : Bool :=
  decide (p.bitlen ≤ q.bitlen) && decide (agree p.bits q.bits p.bitlen)

/-- Modelled from the spec: the index of the first differing bit of two address buffers among
their first `n` bits, `n` itself when they do not differ there (§4.2 case (c)). -/
def differBit (a b : Nat) : Nat → Nat
  | 0 => 0
  | n + 1 =>
    let d := differBit a b n
    if d < n then d else if bitAt a n = bitAt b n then n + 1 else n

/-- Modelled from the spec: the construction-time shape of a `Prefix` (§3): mask length in
`[0, 32]`, a 32-bit buffer, and every bit beyond `bitlen` zero. -/
def Prefix.wf (p : Prefix) : Prop :=
  p.bitlen ≤ 32 ∧ p.bits < 2 ^ 32 ∧ p.bits % 2 ^ (32 - p.bitlen) = 0

instance (p : Prefix) : Decidable p.wf := by
  unfold Prefix.wf; exact inferInstance

/-! ### Text boundary -/

/-- Modelled from the spec: part of `parse` (§4.1), the pieces of a text between occurrences
of the separator `c`. -/
def splitOnChar (c : Char) : List Char → List (List Char)
  | [] => [[]]
  | x :: xs =>
    if x = c then [] :: splitOnChar c xs
    else
      match splitOnChar c xs with
      | [] => [[x]]
      | h :: t => (x :: h) :: t

/-- Modelled from the spec: part of `parse` (§4.1), the value of a decimal digit character,
if it is one. -/
def digitVal (c : Char) : Option Nat :=
  if c.isDigit then some (c.toNat - 48) else none

/-- Modelled from the spec: part of `parse` (§4.1), a non-empty run of decimal digits read as
a number. -/
def parseDecimal (cs : List Char) : Option Nat :=
  match cs with
  | [] => none
  | _ :: _ => cs.foldl (fun acc c => acc.bind fun n => (digitVal c).map fun d => 10 * n + d) (some 0)

/-- Modelled from the spec: part of `parse` (§4.1), one octet of a dotted-decimal address, a
decimal number in `0..255`. -/
def parseOctet (cs : List Char) : Option Nat :=
  match parseDecimal cs with
  | some n => if n ≤ 255 then some n else none
  | none => none

/-- Modelled from the spec: part of `parse` (§4.1), the dotted-decimal address "a.b.c.d" as
a 32-bit number. -/
def parseAddr (cs : List Char) : Option Nat :=
  match splitOnChar '.' cs with
  | [a, b, c, d] =>
    match parseOctet a, parseOctet b, parseOctet c, parseOctet d with
    | some a, some b, some c, some d => some (a * 2 ^ 24 + b * 2 ^ 16 + c * 2 ^ 8 + d)
    | _, _, _, _ => none
  | _ => none

/-- Modelled from the spec: part of `parse` (§4.1), "bits beyond bitlen are masked to zero". -/
def maskBits (addr n : Nat) : Nat := addr / 2 ^ (32 - n) * 2 ^ (32 - n)

/-- Modelled from the spec: `parse(text) -> Prefix` of §4.1 (`ascii2prefix` of the absent
`patricia.c`, called by every adapter function that takes a key).  Splits on an optional
"/bitlen" suffix (32 when absent), reads the dotted-decimal address, fails on malformed
octets, octets outside 0-255 or a bitlen outside `[0, 32]`, and masks the bits beyond bitlen
to zero.  The C function hands its result back as a pointer; failure (`InvalidFormat`) is the
null pointer, here `none`. -/
def ascii2prefix (s : String) : Option Prefix :=
  match splitOnChar '/' s.toList with
  | [a] =>
    match parseAddr a with
    | some addr => some ⟨addr, 32⟩
    | none => none
  | [a, n] =>
    match parseAddr a, parseDecimal n with
    | some addr, some len => if len ≤ 32 then some ⟨maskBits addr len, len⟩ else none
    | _, _ => none
  | _ => none

/-- Modelled from the spec: `to_text(include_mask)` of §4.1 (`prefix_toa2x` of the absent
`patricia.c`): the dotted-decimal address, followed by "/bitlen" when `with_len` is set. -/
def prefix_toa2x (p : Prefix) (with_len : Bool) : String :=
  let a := p.bits
  let addr := toString (a / 2 ^ 24 % 256) ++ "." ++ toString (a / 2 ^ 16 % 256) ++ "." ++
    toString (a / 2 ^ 8 % 256) ++ "." ++ toString (a % 256)
  if with_len then addr ++ "/" ++ toString p.bitlen else addr

/-! ## Ruby values -/

/-- A Ruby `VALUE` as the adapter sees it: the three special constants, a Fixnum, a heap
string (`T_STRING`) with its object identity and content, any other heap object with its
identity, and a `cPatricia` object wrapping a trie node pointer
(`Data_Wrap_Struct(cPatricia, p_node_mark, 0, node)`). -/
inductive VALUE where
  | Qnil
  | Qtrue
  | Qfalse
  | fixnum (n : Int)
  | str (oid : Nat) (content : String)
  | obj (oid : Nat)
  | node (ptr : Nat)
deriving DecidableEq, Repr

/-! ## Trie -/

/-- Modelled from the spec: the `Node` record of §3 (`patricia_node_t` of the absent
`patricia.h`).  `null` is the null pointer; a node carries its identity `id` (its address),
the branching bit-length `bit`, the stored prefix `pfx` (absent on a glue node), the payload
slot `data` (null until set) and its two children.  The `parent` back-reference is not an
ownership relation and is replaced by recursion from the root. -/
inductive PNode where
  | null
  | node (id : Nat) (bit : Nat) (pfx : Option Prefix) (data : Option VALUE) (l r : PNode)
deriving DecidableEq, Repr

namespace PNode

/-- Identities of all nodes of a subtree, glue nodes included (left, self, right). -/
def ids : PNode → List Nat
  | null => []
  | node id _ _ _ l r => ids l ++ id :: ids r

/-- Stored prefixes of the data nodes of a subtree (left, self, right). -/
def prefixes : PNode → List Prefix
  | null => []
  | node _ _ pfx _ l r => prefixes l ++ pfx.toList ++ prefixes r

/-- Modelled from the spec: the key a glue node stands for in the comparison of `insert`
(§4.2), a glue node having no prefix of its own: the prefix of the first data node of the
subtree, the node itself first. -/
def rep : PNode → Option Prefix
  | null => none
  | node _ _ (some q) _ _ _ => some q
  | node _ _ none _ l r =>
    match rep l with
    | some q => some q
    | none => rep r

/-- Dereference of a node pointer: the prefix and payload slot of the node with identity `i`. -/
def find (i : Nat) : PNode → Option (Option Prefix × Option VALUE)
  | null => none
  | node id _ pfx data l r =>
    if id = i then some (pfx, data)
    else
      match find i l with
      | some n => some n
      | none => find i r

/-- Modelled from the spec: the new data node of `insert` (§4.2), without children and with
an empty payload slot. -/
def leaf (id : Nat) (p : Prefix) : PNode := node id p.bitlen (some p) none null null

end PNode

/-- Modelled from the spec: `walk_inorder` of §4.5, the sequence of data nodes of a subtree
in the order left subtree, self, right subtree, glue nodes skipped; each visit hands the
visitor the prefix and the payload.  The null subtree gives zero visits. -/
def walk_inorder : PNode → List (Prefix × Option VALUE)
  | .null => []
  | .node _ _ pfx data l r =>
    walk_inorder l ++ (match pfx with | some q => [(q, data)] | none => []) ++ walk_inorder r

/-- Modelled from the spec: `search_exact` of §4.3 from a node on.  Walks the branch path
dictated by the bits of `p`; at each node compares full prefix equality and returns that node
only if bitlen and bits match exactly; glue nodes are walked through, never returned. -/
def search_exact : PNode → Prefix → Option Nat
  | .null, _ => none
  | .node id bit pfx _ l r, p =>
    if pfx.any (fun q => prefix_equal q p) then some id
    else if bit < p.bitlen then
      if bitAt p.bits bit then search_exact r p else search_exact l p
    else none

/-- Modelled from the spec: `search_best` of §4.3 from a node on, `best` being the most
specific data node seen so far.  Walks the same branch path and tracks the data node whose
prefix is a prefix of (or equal to) the query key; the last such node seen is returned. -/
def search_best : PNode → Prefix → Option Nat → Option Nat
  | .null, _, best => best
  | .node id bit pfx _ l r, p, best =>
    let seen := if pfx.any (fun q => is_prefix_of q p) then some id else best
    if bit < p.bitlen then
      if bitAt p.bits bit then search_best r p seen else search_best l p seen
    else seen

/-- Modelled from the spec: what `insert` (§4.2) hands back below a node: the new subtree, the
identity of the data node that holds the prefix, and the next free identity. -/
structure Inserted where
  root : PNode
  node : Nat
  next : Nat
deriving DecidableEq, Repr

/-- Modelled from the spec: the walk of `insert` of §4.2 from a node on (`patricia_lookup` of
the absent `patricia.c`; the payload is written by the caller).  `next` is the next free node
identity.  The prefix `p` is compared with the keys below the node up to the branching
bit-length:
* empty subtree: a new data node (case (a), and the free child slot of case (c));
* a bit mismatch below both bit-lengths: a glue node whose `bit` is the index of the first
  differing bit forks the path, bit value 0 to the left, 1 to the right (case (c));
* `p` is a strict ancestor of the keys below: a new data node becomes the parent (case (c));
* same bit-length and bits: the existing data node is returned (case (b)); the spec is
  silent on a glue node at that position, which here receives the prefix;
* otherwise the walk goes on into the child chosen by the bit of `p` at `bit`. -/
def insert_at (p : Prefix) (next : Nat) : PNode → Inserted
  | .null => ⟨PNode.leaf next p, next, next + 1⟩
  | .node id bit pfx data l r =>
    let test := ((PNode.node id bit pfx data l r).rep).getD p
    let check := min bit p.bitlen
    let differ := differBit p.bits test.bits check
    if differ < check then
      if bitAt p.bits differ then
        ⟨.node (next + 1) differ none none (.node id bit pfx data l r) (PNode.leaf next p),
          next, next + 2⟩
      else
        ⟨.node (next + 1) differ none none (PNode.leaf next p) (.node id bit pfx data l r),
          next, next + 2⟩
    else if p.bitlen < bit then
      if bitAt test.bits p.bitlen then
        ⟨.node next p.bitlen (some p) none .null (.node id bit pfx data l r), next, next + 1⟩
      else
        ⟨.node next p.bitlen (some p) none (.node id bit pfx data l r) .null, next, next + 1⟩
    else if p.bitlen = bit then
      match pfx with
      | some _ => ⟨.node id bit pfx data l r, id, next⟩
      | none => ⟨.node id bit (some p) data l r, id, next⟩
    else if bitAt p.bits bit then
      let res := insert_at p next r
      ⟨.node id bit pfx data l res.root, res.node, res.next⟩
    else
      let res := insert_at p next l
      ⟨.node id bit pfx data res.root r, res.node, res.next⟩

/-- Modelled from the spec: the glue-node collapse of `remove` (§4.4): a glue node left with
exactly one child is replaced by that child. -/
def collapse (id bit : Nat) (pfx : Option Prefix) (data : Option VALUE) (l r : PNode) : PNode :=
  match pfx, l, r with
  | none, .null, r => r
  | none, l, .null => l
  | _, _, _ => .node id bit pfx data l r

/-- Modelled from the spec: `remove` of §4.4 from a node on, for the node with identity `i`.
The node is detached: without children it disappears, with one child the child takes its
place, with two children it stays as a branch point without prefix and payload (a glue
node).  On the way back a glue node left with one child is collapsed. -/
def remove_at (i : Nat) : PNode → PNode
  | .null => .null
  | .node id bit pfx data l r =>
    if id = i then
      match l, r with
      | .null, .null => .null
      | .null, r => r
      | l, .null => l
      | l, r => .node id bit none none l r
    else collapse id bit pfx data (remove_at i l) (remove_at i r)

/-- Modelled from the spec: the payload attached by the caller (§3, `data`): the payload slot
of the node with identity `i` overwritten, `node->data = v`. -/
def set_data (i : Nat) (v : VALUE) : PNode → PNode
  | .null => .null
  | .node id bit pfx data l r =>
    .node id bit pfx (if id = i then some v else data) (set_data i v l) (set_data i v r)

/-- Modelled from the spec: the `Tree` record of §3 (`patricia_tree_t` of the absent
`patricia.h`): the nullable root and the maximal bit length, with the next free node
identity of the allocator. -/
structure patricia_tree_t where
  head : PNode
  maxbits : Nat
  next_id : Nat
deriving DecidableEq, Repr

/-- Modelled from the spec: tree construction (`New_Patricia` of the absent `patricia.c`):
an empty tree with the given `max_bitlen`. -/
def New_Patricia (maxbits : Nat) : patricia_tree_t := ⟨.null, maxbits, 0⟩

/-- Modelled from the spec: `insert` of §4.2 without the payload write (`patricia_lookup` of
the absent `patricia.c`): the tree after the insertion and the node that holds the prefix. -/
def patricia_lookup (t : patricia_tree_t) (p : Prefix) : patricia_tree_t × Nat :=
  let res := insert_at p t.next_id t.head
  (⟨res.root, t.maxbits, res.next⟩, res.node)

/-- Modelled from the spec: `search_exact` of §4.3 (`patricia_search_exact`). -/
def patricia_search_exact (t : patricia_tree_t) (p : Prefix) : Option Nat :=
  search_exact t.head p

/-- Modelled from the spec: `search_best` of §4.3 (`patricia_search_best`). -/
def patricia_search_best (t : patricia_tree_t) (p : Prefix) : Option Nat :=
  search_best t.head p none

/-- Modelled from the spec: `remove` of §4.4 (`patricia_remove`); removing a node that is
not in the tree is a no-op. -/
def patricia_remove (t : patricia_tree_t) (i : Nat) : patricia_tree_t :=
  if i ∈ t.head.ids then ⟨remove_at i t.head, t.maxbits, t.next_id⟩ else t

/-- Modelled from the spec: the node count of `walk_inorder` of §4.5
(`patricia_walk_inorder(node, func)` returns the number of visits). -/
def patricia_walk_inorder (node : PNode) : Nat := (walk_inorder node).length

/-- Modelled from the spec: the payload attached by the caller (§3, `data`), the macro
`PATRICIA_DATA_SET(node, value)` of the absent `patricia.h`: `node->data = value`. -/
def PATRICIA_DATA_SET (t : patricia_tree_t) (i : Nat) (v : VALUE) : patricia_tree_t :=
  ⟨set_data i v t.head, t.maxbits, t.next_id⟩

/-! ## The adapter (`rpatricia.c`) -/

/-- Modelled from the spec: whole-tree teardown of §6 (`Destroy_Patricia(tree, func)` of the
absent `patricia.c`): every node is released and the cleanup hook, if one is supplied, is
invoked on each payload.  The result is the emptied tree and the payloads the hook was
invoked on. -/
def Destroy_Patricia (t : patricia_tree_t) (hook : Bool) :
    patricia_tree_t × List (Option VALUE) :=
  (⟨.null, t.maxbits, t.next_id⟩, if hook then (walk_inorder t.head).map Prod.snd else [])

/-- Calls the adapter makes into the trie engine, with their arguments as passed; a pointer
argument is `none` when null. -/
inductive Call where
  | New_Patricia (maxbits : Nat)
  | ascii2prefix (text : String)
  | patricia_lookup (pfx : Option Prefix)
  | patricia_search_exact (pfx : Option Prefix)
  | patricia_search_best (pfx : Option Prefix)
  | patricia_remove (node : Nat)
  | patricia_walk_inorder (head : PNode)
  | PATRICIA_WALK (head : PNode)
  | PATRICIA_DATA_SET (node : Nat) (value : VALUE)
  | Destroy_Patricia (hook : Bool)
deriving DecidableEq, Repr

/-- State the adapter functions act on: the tree behind `self`, the next free Ruby object
identity, the calls made into the trie engine so far, and the lines printed so far. -/
structure World where
  tree : patricia_tree_t
  next_oid : Nat
  calls : List Call
  out : List String
deriving DecidableEq, Repr

/-- The world with one more call into the trie engine recorded. -/
def World.call (w : World) (c : Call) : World := { w with calls := w.calls ++ [c] }

/-- How a call of an adapter function ends: it returns a `VALUE`; or `STR2CSTR` raised
`TypeError` on a key that is no string; or a trie operation was entered with a null pointer
where the specification gives it a prefix or a node, after which nothing is specified. -/
inductive Outcome where
  | ret (v : VALUE) (w : World)
  | type_error (w : World)
  | undefined (w : World)
deriving DecidableEq, Repr

/-- The world an outcome leaves behind. -/
def Outcome.world : Outcome → World
  | .ret _ w => w
  | .type_error w => w
  | .undefined w => w

/-- The returned value of an outcome, if the call returned. -/
def Outcome.value : Outcome → Option VALUE
  | .ret v _ => some v
  | .type_error _ => none
  | .undefined _ => none

/-- `TYPE(v) == T_STRING`. -/
def is_T_STRING : VALUE → Bool
  | .str _ _ => true
  | _ => false

/-- The C string behind the content of a Ruby string: a `char *` is read up to its first NUL
byte, so what follows a NUL character in the content is not part of it. -/
def c_string (content : String) : String :=
  String.mk (content.toList.takeWhile fun c => c != Char.ofNat 0)

/-- `STR2CSTR(v)`: the C string of a Ruby string; any other value raises `TypeError`. -/
def STR2CSTR : VALUE → Option String
  | .str _ s => some (c_string s)
  | _ => none

/-- `rb_obj_dup(v)` on a string: a new string object with the same content. -/
def rb_obj_dup (v : VALUE) (next_oid : Nat) : VALUE × Nat :=
  match v with
  | .str _ s => (.str next_oid s, next_oid + 1)
  | .obj _ => (.obj next_oid, next_oid + 1)
  | v => (v, next_oid)

/-- `rb_str_new(NULL, 0)`: a new empty string object. -/
def rb_str_new_empty (next_oid : Nat) : VALUE × Nat := (.str next_oid "", next_oid + 1)

/-- `p_new`: `New_Patricia(32)` wrapped with `p_tree_mark` and `p_tree_free`. -/
def p_new : World :=
  { tree := New_Patricia 32, next_oid := 0, calls := [Call.New_Patricia 32], out := [] }

/-- `p_destroy`: "this method only exists for backwards compatibility"; returns `Qtrue`. -/
def p_destroy (w : World) : Outcome := .ret .Qtrue w

/-- `p_add(argc, argv, self)`. -/
def p_add (argv : List VALUE) (w : World) : Outcome :=
  if argv.length > 2 ∨ argv.length < 1 then .ret .Qnil w
  else
    match STR2CSTR (argv.getD 0 .Qnil) with
    | none => .type_error w
    | some text =>
      let pfx := ascii2prefix text
      let w1 := (w.call (Call.ascii2prefix text)).call (Call.patricia_lookup pfx)
      match pfx with
      | none => .undefined w1
      | some p =>
        let looked := patricia_lookup w.tree p
        let node := looked.2
        let dup :=
          if argv.length = 2 then
            if is_T_STRING (argv.getD 1 .Qnil) then rb_obj_dup (argv.getD 1 .Qnil) w.next_oid
            else (argv.getD 1 .Qnil, w.next_oid)
          else rb_str_new_empty w.next_oid
        .ret (.node node)
          { tree := PATRICIA_DATA_SET looked.1 node dup.1
            next_oid := dup.2
            calls := w1.calls ++ [Call.PATRICIA_DATA_SET node dup.1]
            out := w.out }

/-- `p_remove(self, r_key)`. -/
def p_remove (r_key : VALUE) (w : World) : Outcome :=
  match STR2CSTR r_key with
  | none => .type_error w
  | some c_key =>
    let pfx := ascii2prefix c_key
    let w1 := (w.call (Call.ascii2prefix c_key)).call (Call.patricia_search_exact pfx)
    match pfx with
    | none => .undefined w1
    | some p =>
      match patricia_search_exact w.tree p with
      | some node =>
        .ret .Qtrue
          { (w1.call (Call.patricia_remove node)) with tree := patricia_remove w.tree node }
      | none => .ret .Qfalse w1

/-- `p_match(self, r_key)`, registered as `match_best` and `search_best`. -/
def p_match (r_key : VALUE) (w : World) : Outcome :=
  match STR2CSTR r_key with
  | none => .type_error w
  | some text =>
    let pfx := ascii2prefix text
    let w1 := (w.call (Call.ascii2prefix text)).call (Call.patricia_search_best pfx)
    match pfx with
    | none => .undefined w1
    | some p =>
      match patricia_search_best w.tree p with
      | some node => .ret (.node node) w1
      | none => .ret .Qfalse w1

/-- `p_match_exact(self, r_key)`, registered as `match_exact` and `search_exact`. -/
def p_match_exact (r_key : VALUE) (w : World) : Outcome :=
  match STR2CSTR r_key with
  | none => .type_error w
  | some text =>
    let pfx := ascii2prefix text
    let w1 := (w.call (Call.ascii2prefix text)).call (Call.patricia_search_exact pfx)
    match pfx with
    | none => .undefined w1
    | some p =>
      match patricia_search_exact w.tree p with
      | some node => .ret (.node node) w1
      | none => .ret .Qfalse w1

/-- `p_num_nodes(self)`: `patricia_walk_inorder(tree->head, dummy)` as a Ruby number. -/
def p_num_nodes (w : World) : Outcome :=
  .ret (.fixnum (patricia_walk_inorder w.tree.head))
    (w.call (Call.patricia_walk_inorder w.tree.head))

/-- Modelled from the spec: the traversal of §4.5 behind the macro `PATRICIA_WALK(head, node)`
of the absent `patricia.h`: the data nodes of the subtree, each once. -/
def PATRICIA_WALK (head : PNode) : List (Prefix × Option VALUE) := walk_inorder head

/-- `p_print_nodes(self)`: one line "node: a.b.c.d/n" for each node the walk visits. -/
def p_print_nodes (w : World) : Outcome :=
  .ret .Qtrue
    { (w.call (Call.PATRICIA_WALK w.tree.head)) with
      out := w.out ++ (PATRICIA_WALK w.tree.head).map
        fun n => "node: " ++ prefix_toa2x n.1 true ++ "\n" }

/-- `p_data(self)` on a wrapped node: the payload of the node, a string as a new duplicate.
A null payload slot reads as the `VALUE` 0, which is `Qfalse`. -/
def p_data (self : VALUE) (w : World) : Outcome :=
  match self with
  | .node ptr =>
    match w.tree.head.find ptr with
    | some (_, data) =>
      let user_data := data.getD .Qfalse
      if is_T_STRING user_data then
        .ret (rb_obj_dup user_data w.next_oid).1
          { w with next_oid := (rb_obj_dup user_data w.next_oid).2 }
      else .ret user_data w
    | none => .undefined w
  | _ => .undefined w

/-- `p_tree_free(ptr)`, the finalizer of the tree object: `Destroy_Patricia(tree, NULL)`. -/
def p_tree_free (w : World) : World :=
  { (w.call (Call.Destroy_Patricia false)) with tree := (Destroy_Patricia w.tree false).1 }

/-- The C functions `Init_rpatricia` registers as methods. -/
inductive CFunc where
  | p_new | p_add | p_match | p_match_exact | p_remove | p_num_nodes | p_print_nodes
  | p_destroy | p_data | p_network | p_prefix | p_prefixlen
deriving DecidableEq, Repr

/-- `Init_rpatricia`: the method table of class `Patricia`: name, function, declared arity. -/
def Init_rpatricia : List (String × CFunc × Int) :=
  [("new", .p_new, 0),
   ("add", .p_add, -1), ("add_node", .p_add, -1),
   ("match_best", .p_match, 1), ("search_best", .p_match, 1),
   ("match_exact", .p_match_exact, 1), ("search_exact", .p_match_exact, 1),
   ("remove", .p_remove, 1), ("remove_node", .p_remove, 1),
   ("num_nodes", .p_num_nodes, 0), ("show_nodes", .p_print_nodes, 0),
   ("destroy", .p_destroy, 0), ("clear", .p_destroy, 0),
   ("data", .p_data, 0), ("show_data", .p_data, 0),
   ("network", .p_network, 0), ("prefix", CFunc.p_prefix, 0), ("prefixlen", .p_prefixlen, 0)]

/-- The function registered under a method name. -/
def method_function (name : String) : Option (CFunc × Int) :=
  (Init_rpatricia.find? fun e => e.1 = name).map Prod.snd

/-! ## Well-formedness -/

/-- The node with identity `i` is a data node of the subtree and stores the prefix `p`. -/
def PNode.holds (i : Nat) (p : Prefix) : PNode → Prop
  | .null => False
  | .node id _ pfx _ l r => (id = i ∧ pfx = some p) ∨ PNode.holds i p l ∨ PNode.holds i p r

/-- The trie invariant of §3 on a subtree: branching bit-lengths within the key width, a data
node stores a well-formed prefix whose length is the node's `bit`, a glue node has two
children, every key below a node continues past `bit` with bit value 0 on the left and 1 on
the right, and all keys of the subtree share their first `bit` bits. -/
def Inv : PNode → Prop
  | .null => True
  | .node _ bit pfx _ l r =>
    bit ≤ 32 ∧
    (∀ q, pfx = some q → q.bitlen = bit ∧ q.wf) ∧
    (pfx = none → l ≠ .null ∧ r ≠ .null) ∧
    (∀ q ∈ l.prefixes, bit < q.bitlen ∧ bitAt q.bits bit = false) ∧
    (∀ q ∈ r.prefixes, bit < q.bitlen ∧ bitAt q.bits bit = true) ∧
    (∀ q ∈ l.prefixes ++ pfx.toList ++ r.prefixes,
      ∀ q' ∈ l.prefixes ++ pfx.toList ++ r.prefixes, agree q.bits q'.bits bit) ∧
    Inv l ∧ Inv r

/-- Well-formed tree: the trie invariant, pairwise distinct node identities, all of them
below the next free identity. -/
def patricia_tree_t.wf (t : patricia_tree_t) : Prop :=
  Inv t.head ∧ t.head.ids.Nodup ∧ ∀ i ∈ t.head.ids, i < t.next_id

/-- Well-formed world: its tree is well-formed. -/
def World.wf (w : World) : Prop := w.tree.wf

/-! ## Vocabulary of the properties -/

/-- The prefix a key argument stands for: the parse of its text, if it is a string. -/
def prefix_of_key (key : VALUE) : Option Prefix :=
  match STR2CSTR key with
  | some text => ascii2prefix text
  | none => none

/-- The prefixes of the data nodes of the tree of a world. -/
def World.stored (w : World) : List Prefix := w.tree.head.prefixes

/-- The payload `p_add` writes for its arguments, and the next free object identity: the
second argument, a string as a duplicate, or a new empty string when there is none. -/
def kept_payload (argv : List VALUE) (next_oid : Nat) : VALUE × Nat :=
  if argv.length = 2 then
    if is_T_STRING (argv.getD 1 .Qnil) then rb_obj_dup (argv.getD 1 .Qnil) next_oid
    else (argv.getD 1 .Qnil, next_oid)
  else rb_str_new_empty next_oid

/-- The value `v` equals the payload `d` the way the adapter keeps and hands out payloads:
for a string a string with the same content, for anything else the object itself. -/
def is_copy_of (v d : VALUE) : Prop :=
  match d with
  | .str _ s => ∃ oid, v = .str oid s
  | _ => v = d

/-- The value `v` is the duplicate the adapter makes of the payload `d` when `oid` is the next
free object identity: for a string the new string object with that identity and the same
content, for anything else, which is not duplicated, the object `d` itself. -/
def is_dup_of (v d : VALUE) (oid : Nat) : Prop :=
  match d with
  | .str _ s => v = .str oid s
  | _ => v = d

/-- What longest-prefix match demands of the value returned for the query key `q` over the
stored prefixes: a wrapped node whose prefix is stored, is a prefix of `q` and is at least
as long as every stored prefix of `q`; or `Qfalse` when no stored prefix is a prefix of
`q`. -/
def longest_match (stored : List Prefix) (q : Prefix) (w : World) : Option VALUE → Prop
  | some (.node i) =>
    ∃ pb d, w.tree.head.find i = some (some pb, d) ∧ pb ∈ stored ∧ is_prefix_of pb q = true ∧
      ∀ p ∈ stored, is_prefix_of p q = true → p.bitlen ≤ pb.bitlen
  | some .Qfalse => ∀ p ∈ stored, is_prefix_of p q = false
  | _ => False

/-- A run of `add(key, data)` calls. -/
def add_all (adds : List (VALUE × VALUE)) (w : World) : World :=
  adds.foldl (fun w a => (p_add [a.1, a.2] w).world) w

/-- The prefixes a run of `add` calls names. -/
def added (adds : List (VALUE × VALUE)) : List Prefix :=
  adds.filterMap fun a => prefix_of_key a.1

/-- A mutating call on the tree: `add(key, data)`, `add(key)` or `remove(key)`. -/
inductive Op where
  | add (key data : VALUE)
  | add_key (key : VALUE)
  | remove (key : VALUE)
deriving DecidableEq, Repr

/-- The key argument of a call. -/
def Op.key : Op → VALUE
  | .add k _ => k
  | .add_key k => k
  | .remove k => k

/-- The world after a call. -/
def Op.run (w : World) : Op → World
  | .add k d => (p_add [k, d] w).world
  | .add_key k => (p_add [k] w).world
  | .remove k => (p_remove k w).world

/-- The world after a sequence of calls. -/
def run_all (ops : List Op) (w : World) : World := ops.foldl Op.run w

/-- The set of prefixes a call leaves in the tree, as a list without repetition: `add` puts
its prefix in unless it is there, `remove` takes it out. -/
def Op.track (present : List Prefix) : Op → List Prefix
  | .add k _ =>
    match prefix_of_key k with
    | some p => if p ∈ present then present else p :: present
    | none => present
  | .add_key k =>
    match prefix_of_key k with
    | some p => if p ∈ present then present else p :: present
    | none => present
  | .remove k =>
    match prefix_of_key k with
    | some p => present.erase p
    | none => present

/-- The distinct prefixes in the tree after a sequence of calls on a new tree. -/
def tracked (ops : List Op) : List Prefix := ops.foldl Op.track []

/-- The line `p_print_nodes` prints for a node. -/
def node_line (p : Prefix) : String := "node: " ++ prefix_toa2x p true ++ "\n"

/-! ## Bits -/

theorem agree_refl (a n : Nat) : agree a a n := fun _ _ => rfl

theorem agree_symm {a b n : Nat} (h : agree a b n) : agree b a n :=
  fun i hi => (h i hi).symm

theorem agree_trans {a b c n : Nat} (h₁ : agree a b n) (h₂ : agree b c n) : agree a c n :=
  fun i hi => (h₁ i hi).trans (h₂ i hi)

theorem agree_mono {a b n m : Nat} (h : agree a b n) (hm : m ≤ n) : agree a b m :=
  fun i hi => h i (lt_of_lt_of_le hi hm)

theorem differBit_le (a b : Nat) : ∀ n, differBit a b n ≤ n
  | 0 => le_refl 0
  | n + 1 => by
    have ih := differBit_le a b n
    simp only [differBit]
    split_ifs <;> omega

theorem differBit_agree (a b : Nat) : ∀ n, agree a b (differBit a b n)
  | 0 => fun i hi => absurd hi (Nat.not_lt_zero i)
  | n + 1 => by
    have ih := differBit_agree a b n
    have hle := differBit_le a b n
    simp only [differBit]
    split_ifs with h₁ h₂
    · exact ih
    · have hd : differBit a b n = n := by omega
      rw [hd] at ih
      intro i hi
      rcases Nat.lt_succ_iff_lt_or_eq.mp hi with h | h
      · exact ih i h
      · rw [h]; exact h₂
    · have hd : differBit a b n = n := by omega
      rw [hd] at ih
      exact ih

theorem differBit_ne (a b : Nat) :
    ∀ n, differBit a b n < n → bitAt a (differBit a b n) ≠ bitAt b (differBit a b n)
  | 0 => fun h => absurd h (Nat.not_lt_zero _)
  | n + 1 => by
    have ih := differBit_ne a b n
    have hle := differBit_le a b n
    simp only [differBit]
    split_ifs with h₁ h₂
    · intro _; exact ih h₁
    · intro h; omega
    · intro _; exact h₂

theorem bitAt_false_of_masked {a n i : Nat} (hm : a % 2 ^ (32 - n) = 0) (hn : n ≤ i)
    (hi : i < 32) : bitAt a i = false := by
  unfold bitAt
  obtain ⟨c, hc⟩ := Nat.dvd_of_mod_eq_zero hm
  rw [hc, Nat.testBit_mul_pow_two]
  have : ¬ (32 - n ≤ 31 - i) := by omega
  simp [this]

theorem bits_eq_of_agree {a b n : Nat} (ha : a < 2 ^ 32) (hb : b < 2 ^ 32)
    (hma : a % 2 ^ (32 - n) = 0) (hmb : b % 2 ^ (32 - n) = 0) (h : agree a b n) : a = b := by
  apply Nat.eq_of_testBit_eq
  intro j
  by_cases hj : j < 32
  · by_cases hjn : 31 - j < n
    · have := h (31 - j) hjn
      unfold bitAt at this
      have e : 31 - (31 - j) = j := by omega
      rwa [e] at this
    · have h₁ := bitAt_false_of_masked (i := 31 - j) hma (by omega) (by omega)
      have h₂ := bitAt_false_of_masked (i := 31 - j) hmb (by omega) (by omega)
      unfold bitAt at h₁ h₂
      have e : 31 - (31 - j) = j := by omega
      rw [e] at h₁ h₂
      rw [h₁, h₂]
  · have hj' : 32 ≤ j := by omega
    rw [Nat.testBit_lt_two_pow (lt_of_lt_of_le ha (Nat.pow_le_pow_right (by norm_num) hj')),
      Nat.testBit_lt_two_pow (lt_of_lt_of_le hb (Nat.pow_le_pow_right (by norm_num) hj'))]

theorem prefix_eq_of_equal {p q : Prefix} (hp : p.wf) (hq : q.wf)
    (h : prefix_equal p q = true) : p = q := by
  unfold prefix_equal at h
  simp only [Bool.and_eq_true, decide_eq_true_eq] at h
  obtain ⟨hl, ha⟩ := h
  obtain ⟨_, hp2, hp3⟩ := hp
  obtain ⟨_, hq2, hq3⟩ := hq
  cases p with
  | mk pb pl =>
    cases q with
    | mk qb ql =>
      simp only at hl ha hp2 hp3 hq2 hq3
      subst hl
      have := bits_eq_of_agree hp2 hq2 hp3 hq3 ha
      subst this
      rfl

theorem prefix_equal_self (p : Prefix) : prefix_equal p p = true := by
  unfold prefix_equal
  simp [agree_refl]

/-! ## Parsing yields well-formed prefixes -/

theorem parseOctet_le {cs : List Char} {n : Nat} (h : parseOctet cs = some n) : n ≤ 255 := by
  unfold parseOctet at h
  split at h
  · split at h
    · cases h; assumption
    · cases h
  · cases h

theorem parseAddr_lt {cs : List Char} {a : Nat} (h : parseAddr cs = some a) : a < 2 ^ 32 := by
  unfold parseAddr at h
  split at h
  · split at h
    · rename_i ha hb hc hd
      have := parseOctet_le ha
      have := parseOctet_le hb
      have := parseOctet_le hc
      have := parseOctet_le hd
      cases h
      omega
    · cases h
  · cases h

theorem maskBits_wf (addr n : Nat) (ha : addr < 2 ^ 32) (hn : n ≤ 32) :
    (Prefix.mk (maskBits addr n) n).wf := by
  refine ⟨hn, ?_, ?_⟩
  · exact lt_of_le_of_lt (Nat.div_mul_le_self addr _) ha
  · exact Nat.mul_mod_left _ _

theorem ascii2prefix_wf {s : String} {p : Prefix} (h : ascii2prefix s = some p) : p.wf := by
  unfold ascii2prefix at h
  split at h
  · split at h
    · rename_i addr ha
      cases h
      exact ⟨le_refl 32, parseAddr_lt ha, by simp [Nat.mod_one]⟩
    · cases h
  · split at h
    · rename_i addr len ha hl
      split at h
      · cases h
        exact maskBits_wf addr len (parseAddr_lt ha) (by assumption)
      · cases h
    · cases h
  · cases h

/-! ## Keys of a well-formed subtree -/

theorem PNode.mem_prefixes_node {id bit : Nat} {pfx : Option Prefix} {d : Option VALUE}
    {l r : PNode} {q : Prefix} :
    q ∈ (PNode.node id bit pfx d l r).prefixes ↔
      q ∈ l.prefixes ∨ pfx = some q ∨ q ∈ r.prefixes := by
  cases pfx <;> simp [PNode.prefixes, eq_comm]

theorem Inv.bitlen_ge {id bit : Nat} {pfx : Option Prefix} {d : Option VALUE} {l r : PNode}
    (h : Inv (.node id bit pfx d l r)) {q : Prefix}
    (hq : q ∈ (PNode.node id bit pfx d l r).prefixes) : bit ≤ q.bitlen := by
  obtain ⟨_, h2, _, h4, h5, _⟩ := h
  rcases PNode.mem_prefixes_node.mp hq with hl | hs | hr
  · exact le_of_lt (h4 q hl).1
  · exact le_of_eq (h2 q hs).1.symm
  · exact le_of_lt (h5 q hr).1

theorem Inv.agree_of_mem {id bit : Nat} {pfx : Option Prefix} {d : Option VALUE} {l r : PNode}
    (h : Inv (.node id bit pfx d l r)) {q q' : Prefix}
    (hq : q ∈ (PNode.node id bit pfx d l r).prefixes)
    (hq' : q' ∈ (PNode.node id bit pfx d l r).prefixes) : agree q.bits q'.bits bit :=
  h.2.2.2.2.2.1 q hq q' hq'

theorem Inv.wf_of_mem : ∀ {t : PNode}, Inv t → ∀ q ∈ t.prefixes, q.wf
  | .null, _, q, hq => by simp [PNode.prefixes] at hq
  | .node _ _ _ _ l r, h, q, hq => by
    rcases PNode.mem_prefixes_node.mp hq with hl | hs | hr
    · exact Inv.wf_of_mem h.2.2.2.2.2.2.1 q hl
    · exact (h.2.1 q hs).2
    · exact Inv.wf_of_mem h.2.2.2.2.2.2.2 q hr

theorem PNode.rep_mem : ∀ {t : PNode} {q : Prefix}, t.rep = some q → q ∈ t.prefixes
  | .null, q, h => by simp [PNode.rep] at h
  | .node _ _ (some q') _ _ _, q, h => by
    simp only [PNode.rep, Option.some.injEq] at h
    exact PNode.mem_prefixes_node.mpr (Or.inr (Or.inl (by rw [h])))
  | .node _ _ none _ l r, q, h => by
    simp only [PNode.rep] at h
    split at h
    · rename_i q' hl
      cases h
      exact PNode.mem_prefixes_node.mpr (Or.inl (PNode.rep_mem hl))
    · exact PNode.mem_prefixes_node.mpr (Or.inr (Or.inr (PNode.rep_mem h)))

theorem Inv.rep_isSome : ∀ {t : PNode}, Inv t → t ≠ .null → ∃ q, t.rep = some q
  | .null, _, hn => absurd rfl hn
  | .node _ _ (some q) _ _ _, _, _ => ⟨q, rfl⟩
  | .node _ _ none _ l r, h, _ => by
    obtain ⟨q, hq⟩ := Inv.rep_isSome h.2.2.2.2.2.2.1 (h.2.2.1 rfl).1
    exact ⟨q, by simp [PNode.rep, hq]⟩

theorem Inv.nodup : ∀ {t : PNode}, Inv t → t.prefixes.Nodup
  | .null, _ => by simp [PNode.prefixes]
  | .node _ bit pfx _ l r, h => by
    obtain ⟨_, h2, _, h4, h5, _, hl, hr⟩ := h
    have nl := Inv.nodup hl
    have nr := Inv.nodup hr
    simp only [PNode.prefixes]
    rw [List.append_assoc, List.nodup_append]
    refine ⟨nl, ?_, ?_⟩
    · rw [List.nodup_append]
      refine ⟨?_, nr, ?_⟩
      · cases pfx <;> simp
      · intro q hq hq'
        have := (h5 q hq').1
        cases pfx with
        | none => simp at hq
        | some q' =>
          simp only [Option.toList_some, List.mem_singleton] at hq
          have := (h2 q' rfl).1
          subst hq
          omega
    · intro q hq hq'
      have a := h4 q hq
      rcases List.mem_append.mp hq' with hs | hr'
      · cases pfx with
        | none => simp at hs
        | some q' =>
          simp only [Option.toList_some, List.mem_singleton] at hs
          have := (h2 q' rfl).1
          subst hs
          omega
      · have b := h5 q hr'
        rw [a.2] at b
        exact absurd b.2 (by simp)

theorem PNode.holds_mem_prefixes : ∀ {t : PNode} {i : Nat} {p : Prefix},
    t.holds i p → p ∈ t.prefixes
  | .null, _, _, h => h.elim
  | .node _ _ _ _ l r, i, p, h => by
    rcases h with ⟨_, hs⟩ | hl | hr
    · exact PNode.mem_prefixes_node.mpr (Or.inr (Or.inl hs))
    · exact PNode.mem_prefixes_node.mpr (Or.inl (PNode.holds_mem_prefixes hl))
    · exact PNode.mem_prefixes_node.mpr (Or.inr (Or.inr (PNode.holds_mem_prefixes hr)))

theorem PNode.holds_mem_ids : ∀ {t : PNode} {i : Nat} {p : Prefix}, t.holds i p → i ∈ t.ids
  | .null, _, _, h => h.elim
  | .node _ _ _ _ l r, i, p, h => by
    simp only [PNode.ids, List.mem_append, List.mem_cons]
    rcases h with ⟨hi, _⟩ | hl | hr
    · exact Or.inr (Or.inl hi.symm)
    · exact Or.inl (PNode.holds_mem_ids hl)
    · exact Or.inr (Or.inr (PNode.holds_mem_ids hr))

theorem PNode.exists_holds_of_mem : ∀ {t : PNode} {p : Prefix},
    p ∈ t.prefixes → ∃ i, t.holds i p
  | .null, _, h => by simp [PNode.prefixes] at h
  | .node id _ _ _ l r, p, h => by
    rcases PNode.mem_prefixes_node.mp h with hl | hs | hr
    · obtain ⟨i, hi⟩ := PNode.exists_holds_of_mem hl
      exact ⟨i, Or.inr (Or.inl hi)⟩
    · exact ⟨id, Or.inl ⟨rfl, hs⟩⟩
    · obtain ⟨i, hi⟩ := PNode.exists_holds_of_mem hr
      exact ⟨i, Or.inr (Or.inr hi)⟩

theorem Inv.holds_unique : ∀ {t : PNode}, Inv t → ∀ {i j : Nat} {p : Prefix},
    t.holds i p → t.holds j p → i = j
  | .null, _, _, _, _, h, _ => h.elim
  | .node _ bit pfx _ l r, h, i, j, p, hi, hj => by
    obtain ⟨_, h2, _, h4, h5, _, hl, hr⟩ := h
    rcases hi with ⟨e1, s1⟩ | l1 | r1 <;> rcases hj with ⟨e2, s2⟩ | l2 | r2
    · exact e1.symm.trans e2
    · have := (h2 p s1).1; have := (h4 p (PNode.holds_mem_prefixes l2)).1; omega
    · have := (h2 p s1).1; have := (h5 p (PNode.holds_mem_prefixes r2)).1; omega
    · have := (h2 p s2).1; have := (h4 p (PNode.holds_mem_prefixes l1)).1; omega
    · exact Inv.holds_unique hl l1 l2
    · have a := (h4 p (PNode.holds_mem_prefixes l1)).2
      have b := (h5 p (PNode.holds_mem_prefixes r2)).2
      rw [a] at b; exact absurd b (by simp)
    · have := (h2 p s2).1; have := (h5 p (PNode.holds_mem_prefixes r1)).1; omega
    · have a := (h4 p (PNode.holds_mem_prefixes l2)).2
      have b := (h5 p (PNode.holds_mem_prefixes r1)).2
      rw [a] at b; exact absurd b (by simp)
    · exact Inv.holds_unique hr r1 r2

/-! ## Exact search -/

theorem search_exact_holds : ∀ {t : PNode}, Inv t → ∀ {p : Prefix} {i : Nat}, p.wf →
    search_exact t p = some i → t.holds i p
  | .null, _, _, _, _, h => by simp [search_exact] at h
  | .node id bit pfx _ l r, hinv, p, i, hp, h => by
    simp only [search_exact] at h
    split_ifs at h with h₁ h₂ h₃
    · cases pfx with
      | none => simp at h₁
      | some q =>
        simp only [Option.any_some] at h₁
        have := prefix_eq_of_equal (hinv.2.1 q rfl).2 hp h₁
        subst this
        cases h
        exact Or.inl ⟨rfl, rfl⟩
    · exact Or.inr (Or.inr (search_exact_holds hinv.2.2.2.2.2.2.2 hp h))
    · exact Or.inr (Or.inl (search_exact_holds hinv.2.2.2.2.2.2.1 hp h))

theorem search_exact_of_holds : ∀ {t : PNode}, Inv t → ∀ {p : Prefix} {i : Nat},
    t.holds i p → search_exact t p = some i
  | .null, _, _, _, h => h.elim
  | .node id bit pfx d l r, hinv, p, i, h => by
    have hroot := hinv
    obtain ⟨_, h2, _, h4, h5, _, hl, hr⟩ := hinv
    simp only [search_exact]
    split_ifs with h₁ h₂ h₃
    · cases pfx with
      | none => simp at h₁
      | some q =>
        simp only [Option.any_some] at h₁
        have hpm := PNode.holds_mem_prefixes h
        have hpw := Inv.wf_of_mem hroot p hpm
        have := prefix_eq_of_equal (h2 q rfl).2 hpw h₁
        subst this
        have hid : (PNode.node id bit (some q) d l r).holds id q := Or.inl ⟨rfl, rfl⟩
        rw [Inv.holds_unique hroot hid h]
    · rcases h with ⟨_, hs⟩ | hl' | hr'
      · subst hs; simp [prefix_equal_self] at h₁
      · have := (h4 p (PNode.holds_mem_prefixes hl')).2
        rw [this] at h₃; cases h₃
      · exact search_exact_of_holds hr hr'
    · rcases h with ⟨_, hs⟩ | hl' | hr'
      · subst hs; simp [prefix_equal_self] at h₁
      · exact search_exact_of_holds hl hl'
      · have := (h5 p (PNode.holds_mem_prefixes hr')).2
        exact absurd this h₃
    · rcases h with ⟨_, hs⟩ | hl' | hr'
      · subst hs; simp [prefix_equal_self] at h₁
      · have := (h4 p (PNode.holds_mem_prefixes hl')).1; omega
      · have := (h5 p (PNode.holds_mem_prefixes hr')).1; omega

theorem search_exact_isSome_iff {t : PNode} (hinv : Inv t) {p : Prefix} (hp : p.wf) :
    (∃ i, search_exact t p = some i) ↔ p ∈ t.prefixes := by
  constructor
  · rintro ⟨i, hi⟩
    exact PNode.holds_mem_prefixes (search_exact_holds hinv hp hi)
  · intro h
    obtain ⟨i, hi⟩ := PNode.exists_holds_of_mem h
    exact ⟨i, search_exact_of_holds hinv hi⟩

theorem search_exact_eq_none_iff {t : PNode} (hinv : Inv t) {p : Prefix} (hp : p.wf) :
    search_exact t p = none ↔ p ∉ t.prefixes := by
  rw [← search_exact_isSome_iff hinv hp]
  cases search_exact t p <;> simp

/-! ## Insertion -/

theorem Inv.leaf {p : Prefix} (hp : p.wf) (n : Nat) : Inv (PNode.leaf n p) := by
  refine ⟨hp.1, ?_, ?_, ?_, ?_, ?_, trivial, trivial⟩
  · intro q hq; cases hq; exact ⟨rfl, hp⟩
  · intro h; cases h
  · intro q hq; simp [PNode.prefixes] at hq
  · intro q hq; simp [PNode.prefixes] at hq
  · intro q hq q' hq'
    simp only [PNode.prefixes, List.nil_append, Option.toList_some, List.append_nil,
      List.mem_singleton] at hq hq'
    subst hq; subst hq'; exact agree_refl _ _

theorem agree_of_subset {S L : List Prefix} {p : Prefix} {m : Nat}
    (hL : ∀ q ∈ L, q = p ∨ q ∈ S)
    (hS : ∀ q ∈ S, ∀ q' ∈ S, agree q.bits q'.bits m)
    (hp : ∀ q ∈ S, agree p.bits q.bits m) :
    ∀ q ∈ L, ∀ q' ∈ L, agree q.bits q'.bits m := by
  intro q hq q' hq'
  rcases hL q hq with e | h <;> rcases hL q' hq' with e' | h'
  · subst e; subst e'; exact agree_refl _ _
  · subst e; exact hp q' h'
  · subst e'; exact agree_symm (hp q h)
  · exact hS q h q' h'

theorem PNode.prefixes_leaf (n : Nat) (p : Prefix) : (PNode.leaf n p).prefixes = [p] := by
  simp [PNode.leaf, PNode.prefixes]

theorem insert_at_node (p : Prefix) (n id bit : Nat) (pfx : Option Prefix) (d : Option VALUE)
    (l r : PNode) (q0 : Prefix) (hrep : q0 = ((PNode.node id bit pfx d l r).rep).getD p)
    (dd : Nat) (hdd : dd = differBit p.bits q0.bits (min bit p.bitlen)) :
    insert_at p n (.node id bit pfx d l r) =
      if dd < min bit p.bitlen then
        if bitAt p.bits dd then
          ⟨.node (n + 1) dd none none (.node id bit pfx d l r) (PNode.leaf n p), n, n + 2⟩
        else
          ⟨.node (n + 1) dd none none (PNode.leaf n p) (.node id bit pfx d l r), n, n + 2⟩
      else if p.bitlen < bit then
        if bitAt q0.bits p.bitlen then
          ⟨.node n p.bitlen (some p) none .null (.node id bit pfx d l r), n, n + 1⟩
        else
          ⟨.node n p.bitlen (some p) none (.node id bit pfx d l r) .null, n, n + 1⟩
      else if p.bitlen = bit then ⟨.node id bit (some (pfx.getD p)) d l r, id, n⟩
      else if bitAt p.bits bit then
        ⟨.node id bit pfx d l (insert_at p n r).root, (insert_at p n r).node,
          (insert_at p n r).next⟩
      else
        ⟨.node id bit pfx d (insert_at p n l).root r, (insert_at p n l).node,
          (insert_at p n l).next⟩ := by
  subst hdd
  subst hrep
  cases pfx <;> simp only [insert_at, Option.getD_some, Option.getD_none]

theorem Inv.fork {t : PNode} (ht : Inv t) (hnull : t ≠ .null) {p q0 : Prefix} (hp : p.wf)
    {b dd : Nat} (hge : ∀ q ∈ t.prefixes, b ≤ q.bitlen)
    (hag : ∀ q ∈ t.prefixes, ∀ q' ∈ t.prefixes, agree q.bits q'.bits b)
    (hq0 : q0 ∈ t.prefixes) (hdb : dd < b) (hdp : dd < p.bitlen) (hb : b ≤ 32)
    (hdag : agree p.bits q0.bits dd) (hdne : bitAt p.bits dd ≠ bitAt q0.bits dd)
    (g n : Nat) :
    (bitAt p.bits dd = true → Inv (.node g dd none none t (PNode.leaf n p))) ∧
    (bitAt p.bits dd = false → Inv (.node g dd none none (PNode.leaf n p) t)) := by
  have hpS : ∀ q ∈ t.prefixes, agree p.bits q.bits dd := fun q hq =>
    agree_trans hdag (agree_mono (hag q0 hq0 q hq) (le_of_lt hdb))
  have hSS : ∀ q ∈ t.prefixes, ∀ q' ∈ t.prefixes, agree q.bits q'.bits dd :=
    fun q hq q' hq' => agree_mono (hag q hq q' hq') (le_of_lt hdb)
  have hside : ∀ q ∈ t.prefixes, dd < q.bitlen ∧ bitAt q.bits dd = bitAt q0.bits dd :=
    fun q hq => ⟨lt_of_lt_of_le hdb (hge q hq), hag q hq q0 hq0 dd hdb⟩
  have hleafnull : PNode.leaf n p ≠ .null := by simp [PNode.leaf]
  constructor
  · intro hbit
    rw [hbit] at hdne
    have hq0b : bitAt q0.bits dd = false := by
      cases h : bitAt q0.bits dd
      · rfl
      · rw [h] at hdne; exact absurd rfl hdne
    refine ⟨by omega, ?_, fun _ => ⟨hnull, hleafnull⟩, ?_, ?_, ?_, ht, Inv.leaf hp n⟩
    · intro q hq; cases hq
    · intro q hq; exact ⟨(hside q hq).1, by rw [(hside q hq).2, hq0b]⟩
    · intro q hq
      rw [PNode.prefixes_leaf, List.mem_singleton] at hq
      subst hq; exact ⟨hdp, hbit⟩
    · apply agree_of_subset (S := t.prefixes) (p := p) _ hSS hpS
      intro q hq
      simp only [Option.toList_none, List.append_nil, PNode.prefixes_leaf, List.mem_append,
        List.mem_singleton] at hq
      tauto
  · intro hbit
    rw [hbit] at hdne
    have hq0b : bitAt q0.bits dd = true := by
      cases h : bitAt q0.bits dd
      · rw [h] at hdne; exact absurd rfl hdne
      · rfl
    refine ⟨by omega, ?_, fun _ => ⟨hleafnull, hnull⟩, ?_, ?_, ?_, Inv.leaf hp n, ht⟩
    · intro q hq; cases hq
    · intro q hq
      rw [PNode.prefixes_leaf, List.mem_singleton] at hq
      subst hq; exact ⟨hdp, hbit⟩
    · intro q hq; exact ⟨(hside q hq).1, by rw [(hside q hq).2, hq0b]⟩
    · apply agree_of_subset (S := t.prefixes) (p := p) _ hSS hpS
      intro q hq
      simp only [Option.toList_none, List.append_nil, PNode.prefixes_leaf, List.mem_append,
        List.mem_singleton] at hq
      tauto

theorem Inv.parent {t : PNode} (ht : Inv t) {p q0 : Prefix} (hp : p.wf)
    {b : Nat} (hge : ∀ q ∈ t.prefixes, b ≤ q.bitlen)
    (hag : ∀ q ∈ t.prefixes, ∀ q' ∈ t.prefixes, agree q.bits q'.bits b)
    (hq0 : q0 ∈ t.prefixes) (hpb : p.bitlen < b)
    (hdag : agree p.bits q0.bits p.bitlen) (n : Nat) :
    (bitAt q0.bits p.bitlen = true → Inv (.node n p.bitlen (some p) none .null t)) ∧
    (bitAt q0.bits p.bitlen = false → Inv (.node n p.bitlen (some p) none t .null)) := by
  have hpS : ∀ q ∈ t.prefixes, agree p.bits q.bits p.bitlen := fun q hq =>
    agree_trans hdag (agree_mono (hag q0 hq0 q hq) (le_of_lt hpb))
  have hSS : ∀ q ∈ t.prefixes, ∀ q' ∈ t.prefixes, agree q.bits q'.bits p.bitlen :=
    fun q hq q' hq' => agree_mono (hag q hq q' hq') (le_of_lt hpb)
  have hside : ∀ q ∈ t.prefixes,
      p.bitlen < q.bitlen ∧ bitAt q.bits p.bitlen = bitAt q0.bits p.bitlen :=
    fun q hq => ⟨lt_of_lt_of_le hpb (hge q hq), hag q hq q0 hq0 p.bitlen hpb⟩
  constructor
  · intro hbit
    refine ⟨hp.1, ?_, ?_, ?_, ?_, ?_, trivial, ht⟩
    · intro q hq; cases hq; exact ⟨rfl, hp⟩
    · intro h; cases h
    · intro q hq; simp [PNode.prefixes] at hq
    · intro q hq; exact ⟨(hside q hq).1, by rw [(hside q hq).2, hbit]⟩
    · apply agree_of_subset (S := t.prefixes) (p := p) _ hSS hpS
      intro q hq
      simp only [PNode.prefixes, Option.toList_some, List.nil_append, List.singleton_append,
        List.mem_cons] at hq
      exact hq
  · intro hbit
    refine ⟨hp.1, ?_, ?_, ?_, ?_, ?_, ht, trivial⟩
    · intro q hq; cases hq; exact ⟨rfl, hp⟩
    · intro h; cases h
    · intro q hq; exact ⟨(hside q hq).1, by rw [(hside q hq).2, hbit]⟩
    · intro q hq; simp [PNode.prefixes] at hq
    · apply agree_of_subset (S := t.prefixes) (p := p) _ hSS hpS
      intro q hq
      simp only [PNode.prefixes, Option.toList_some, List.append_nil, List.mem_append,
        List.mem_singleton] at hq
      tauto

set_option maxHeartbeats 1000000 in
theorem insert_at_spec {t : PNode} (hinv : Inv t) {p : Prefix} (n : Nat) (hp : p.wf) :
    Inv (insert_at p n t).root ∧
    (∀ q, q ∈ (insert_at p n t).root.prefixes ↔ q = p ∨ q ∈ t.prefixes) ∧
    (insert_at p n t).root.holds (insert_at p n t).node p ∧
    (insert_at p n t).root ≠ .null := by
  induction t with
  | null =>
    simp only [insert_at]
    refine ⟨Inv.leaf hp n, ?_, Or.inl ⟨rfl, rfl⟩, by simp [PNode.leaf]⟩
    intro q; simp [PNode.prefixes_leaf, PNode.prefixes]
  | node id bit pfx d l r ihl ihr =>
    obtain ⟨q0, hrep⟩ := Inv.rep_isSome hinv (by simp)
    have hq0 := PNode.rep_mem hrep
    have hge : ∀ q ∈ (PNode.node id bit pfx d l r).prefixes, bit ≤ q.bitlen :=
      fun q hq => Inv.bitlen_ge hinv hq
    have hag : ∀ q ∈ (PNode.node id bit pfx d l r).prefixes,
        ∀ q' ∈ (PNode.node id bit pfx d l r).prefixes, agree q.bits q'.bits bit :=
      fun q hq q' hq' => Inv.agree_of_mem hinv hq hq'
    have hnull : PNode.node id bit pfx d l r ≠ .null := by simp
    have key := insert_at_node p n id bit pfx d l r q0 (by rw [hrep]; rfl) _ rfl
    have hdle := differBit_le p.bits q0.bits (min bit p.bitlen)
    have hdag := differBit_agree p.bits q0.bits (min bit p.bitlen)
    have hdne := differBit_ne p.bits q0.bits (min bit p.bitlen)
    generalize differBit p.bits q0.bits (min bit p.bitlen) = dd at key hdle hdag hdne
    have hroot := hinv
    obtain ⟨hb32, h2, h3, h4, h5, h6, hl, hr⟩ := hinv
    rw [key]
    clear key
    split_ifs with c₁ c₂ c₃ c₄ c₅ c₆
    · have hdb : dd < bit := lt_of_lt_of_le c₁ (min_le_left _ _)
      have hdp : dd < p.bitlen := lt_of_lt_of_le c₁ (min_le_right _ _)
      refine ⟨(Inv.fork hroot hnull hp hge hag hq0 hdb hdp hb32 hdag (hdne c₁) _ _).1 c₂, ?_,
        Or.inr (Or.inr (Or.inl ⟨rfl, rfl⟩)), by simp⟩
      intro q
      rw [PNode.mem_prefixes_node, PNode.prefixes_leaf, List.mem_singleton]
      simp only [reduceCtorEq, false_or]
      exact Or.comm
    · have hdb : dd < bit := lt_of_lt_of_le c₁ (min_le_left _ _)
      have hdp : dd < p.bitlen := lt_of_lt_of_le c₁ (min_le_right _ _)
      refine ⟨(Inv.fork hroot hnull hp hge hag hq0 hdb hdp hb32 hdag (hdne c₁) _ _).2
        (by simpa using c₂), ?_, Or.inr (Or.inl (Or.inl ⟨rfl, rfl⟩)), by simp⟩
      intro q
      rw [PNode.mem_prefixes_node, PNode.prefixes_leaf, List.mem_singleton]
      simp only [reduceCtorEq, false_or]
    · have hd : dd = p.bitlen := by
        have := min_eq_right (le_of_lt c₃); omega
      subst hd
      refine ⟨(Inv.parent hroot hp hge hag hq0 c₃ hdag _).1 c₄, ?_, Or.inl ⟨rfl, rfl⟩, by simp⟩
      intro q
      rw [PNode.mem_prefixes_node]
      simp [PNode.prefixes, eq_comm]
    · have hd : dd = p.bitlen := by
        have := min_eq_right (le_of_lt c₃); omega
      subst hd
      refine ⟨(Inv.parent hroot hp hge hag hq0 c₃ hdag _).2 (by simpa using c₄), ?_,
        Or.inl ⟨rfl, rfl⟩, by simp⟩
      intro q
      rw [PNode.mem_prefixes_node]
      simp only [PNode.prefixes, List.not_mem_nil, or_false, Option.some.injEq]
      constructor
      · rintro (h | h)
        · exact Or.inr h
        · exact Or.inl h.symm
      · rintro (h | h)
        · exact Or.inr h.symm
        · exact Or.inl h
    · have hd : dd = bit := by
        have := min_eq_left (le_of_eq c₅.symm); omega
      subst hd
      have hpS : ∀ q ∈ (PNode.node id dd pfx d l r).prefixes, agree p.bits q.bits dd :=
        fun q hq => agree_trans hdag (hag q0 hq0 q hq)
      cases pfx with
      | some q' =>
        have hq' : q' = p := by
          have e : q0 = q' := by simpa [PNode.rep] using hrep.symm
          subst e
          have hw := (h2 q0 rfl)
          apply prefix_eq_of_equal hw.2 hp
          unfold prefix_equal
          simp only [Bool.and_eq_true, decide_eq_true_eq]
          refine ⟨by rw [hw.1, c₅], ?_⟩
          rw [hw.1]
          exact agree_symm hdag
        subst hq'
        refine ⟨hroot, ?_, Or.inl ⟨rfl, rfl⟩, by simp⟩
        intro q
        constructor
        · exact fun h => Or.inr h
        · rintro (h | h)
          · subst h; exact PNode.mem_prefixes_node.mpr (Or.inr (Or.inl rfl))
          · exact h
      | none =>
        have hmem : ∀ q, q ∈ (PNode.node id dd (some p) d l r).prefixes ↔
            q = p ∨ q ∈ (PNode.node id dd none d l r).prefixes := by
          intro q
          rw [PNode.mem_prefixes_node, PNode.mem_prefixes_node]
          simp only [Option.some.injEq, reduceCtorEq, false_or]
          constructor
          · rintro (h | h | h)
            · exact Or.inr (Or.inl h)
            · exact Or.inl h.symm
            · exact Or.inr (Or.inr h)
          · rintro (h | h | h)
            · exact Or.inr (Or.inl h.symm)
            · exact Or.inl h
            · exact Or.inr (Or.inr h)
        refine ⟨⟨hb32, ?_, ?_, h4, h5, ?_, hl, hr⟩, hmem, Or.inl ⟨rfl, rfl⟩, by simp⟩
        · intro q hq; cases hq; exact ⟨c₅, hp⟩
        · intro h; cases h
        · exact agree_of_subset
            (fun q hq => (hmem q).mp (by simpa [PNode.prefixes] using hq))
            (fun q hq q' hq' => hag q hq q' hq') hpS
    · have hlt : bit < p.bitlen := by omega
      have hd : dd = bit := by
        have := min_eq_left (le_of_lt hlt); omega
      subst hd
      have hpS : ∀ q ∈ (PNode.node id dd pfx d l r).prefixes, agree p.bits q.bits dd :=
        fun q hq => agree_trans hdag (hag q0 hq0 q hq)
      obtain ⟨i1, i2, i3, i4⟩ := ihr hr
      have hmem : ∀ q, q ∈ (PNode.node id dd pfx d l (insert_at p n r).root).prefixes ↔
          q = p ∨ q ∈ (PNode.node id dd pfx d l r).prefixes := by
        intro q
        rw [PNode.mem_prefixes_node, PNode.mem_prefixes_node, i2]
        tauto
      refine ⟨⟨hb32, h2, fun h => ⟨(h3 h).1, i4⟩, h4, ?_, ?_, hl, i1⟩, hmem,
        Or.inr (Or.inr i3), by simp⟩
      · intro q hq
        rcases (i2 q).mp hq with e | h
        · subst e; exact ⟨hlt, c₆⟩
        · exact h5 q h
      · exact agree_of_subset
          (fun q hq => (hmem q).mp (by simpa [PNode.prefixes] using hq))
          (fun q hq q' hq' => hag q hq q' hq') hpS
    · have hlt : bit < p.bitlen := by omega
      have hd : dd = bit := by
        have := min_eq_left (le_of_lt hlt); omega
      subst hd
      have hpS : ∀ q ∈ (PNode.node id dd pfx d l r).prefixes, agree p.bits q.bits dd :=
        fun q hq => agree_trans hdag (hag q0 hq0 q hq)
      obtain ⟨i1, i2, i3, i4⟩ := ihl hl
      have hmem : ∀ q, q ∈ (PNode.node id dd pfx d (insert_at p n l).root r).prefixes ↔
          q = p ∨ q ∈ (PNode.node id dd pfx d l r).prefixes := by
        intro q
        rw [PNode.mem_prefixes_node, PNode.mem_prefixes_node, i2]
        tauto
      refine ⟨⟨hb32, h2, fun h => ⟨i4, (h3 h).2⟩, ?_, h5, ?_, i1, hr⟩, hmem,
        Or.inr (Or.inl i3), by simp⟩
      · intro q hq
        rcases (i2 q).mp hq with e | h
        · subst e; exact ⟨hlt, by simpa using c₆⟩
        · exact h4 q h
      · exact agree_of_subset
          (fun q hq => (hmem q).mp (by simpa [PNode.prefixes] using hq))
          (fun q hq q' hq' => hag q hq q' hq') hpS

theorem insert_at_holds_of_holds {t : PNode} (p : Prefix) (n : Nat) {i : Nat} {q : Prefix}
    (h : t.holds i q) : (insert_at p n t).root.holds i q := by
  induction t with
  | null => exact h.elim
  | node id bit pfx d l r ihl ihr =>
    rw [insert_at_node p n id bit pfx d l r _ rfl _ rfl]
    split_ifs
    · exact Or.inr (Or.inl h)
    · exact Or.inr (Or.inr h)
    · exact Or.inr (Or.inr h)
    · exact Or.inr (Or.inl h)
    · rcases h with ⟨e, hs⟩ | hl | hr
      · exact Or.inl ⟨e, by rw [hs]; rfl⟩
      · exact Or.inr (Or.inl hl)
      · exact Or.inr (Or.inr hr)
    · rcases h with hs | hl | hr
      · exact Or.inl hs
      · exact Or.inr (Or.inl hl)
      · exact Or.inr (Or.inr (ihr hr))
    · rcases h with hs | hl | hr
      · exact Or.inl hs
      · exact Or.inr (Or.inl (ihl hl))
      · exact Or.inr (Or.inr hr)

theorem PNode.ids_leaf (n : Nat) (p : Prefix) : (PNode.leaf n p).ids = [n] := by
  simp [PNode.leaf, PNode.ids]

theorem insert_at_ids (p : Prefix) (n : Nat) (t : PNode) :
    n ≤ (insert_at p n t).next ∧
    (∀ i ∈ (insert_at p n t).root.ids, i ∈ t.ids ∨ (n ≤ i ∧ i < (insert_at p n t).next)) ∧
    (∀ i ∈ t.ids, i ∈ (insert_at p n t).root.ids) ∧
    (insert_at p n t).node ∈ (insert_at p n t).root.ids := by
  induction t with
  | null =>
    simp only [insert_at, PNode.ids_leaf, PNode.ids]
    refine ⟨by omega, ?_, ?_, by simp⟩
    · intro i hi
      have : i = n := by simpa using hi
      right; omega
    · intro i hi; simp at hi
  | node id bit pfx d l r ihl ihr =>
    rw [insert_at_node p n id bit pfx d l r _ rfl _ rfl]
    split_ifs <;> dsimp only
    · refine ⟨by omega, ?_, ?_, by simp [PNode.ids, PNode.ids_leaf]⟩
      · intro i hi
        simp only [PNode.ids, PNode.ids_leaf, List.mem_append, List.mem_cons,
          List.mem_singleton, List.not_mem_nil, or_false] at hi ⊢
        casesm* _ ∨ _ <;> first | (right; omega) | tauto
      · intro i hi
        simp only [PNode.ids, PNode.ids_leaf, List.mem_append, List.mem_cons,
          List.mem_singleton] at hi ⊢
        tauto
    · refine ⟨by omega, ?_, ?_, by simp [PNode.ids, PNode.ids_leaf]⟩
      · intro i hi
        simp only [PNode.ids, PNode.ids_leaf, List.mem_append, List.mem_cons,
          List.mem_singleton, List.not_mem_nil, or_false] at hi ⊢
        casesm* _ ∨ _ <;> first | (right; omega) | tauto
      · intro i hi
        simp only [PNode.ids, PNode.ids_leaf, List.mem_append, List.mem_cons,
          List.mem_singleton] at hi ⊢
        tauto
    · refine ⟨by omega, ?_, ?_, by simp [PNode.ids]⟩
      · intro i hi
        simp only [PNode.ids, List.mem_append, List.mem_cons, List.nil_append,
          List.not_mem_nil, or_false] at hi ⊢
        casesm* _ ∨ _ <;> first | (right; omega) | tauto
      · intro i hi
        simp only [PNode.ids, List.mem_append, List.mem_cons, List.nil_append] at hi ⊢
        tauto
    · refine ⟨by omega, ?_, ?_, by simp [PNode.ids]⟩
      · intro i hi
        simp only [PNode.ids, List.mem_append, List.mem_cons, List.not_mem_nil,
          or_false] at hi ⊢
        casesm* _ ∨ _ <;> first | (right; omega) | tauto
      · intro i hi
        simp only [PNode.ids, List.mem_append, List.mem_cons] at hi ⊢
        tauto
    · refine ⟨le_refl n, ?_, ?_, by simp [PNode.ids]⟩
      · intro i hi
        simp only [PNode.ids, List.mem_append, List.mem_cons] at hi ⊢
        exact Or.inl hi
      · intro i hi
        simp only [PNode.ids, List.mem_append, List.mem_cons] at hi ⊢
        exact hi
    · obtain ⟨a, b, c, e⟩ := ihr
      refine ⟨a, ?_, ?_, ?_⟩
      · intro i hi
        simp only [PNode.ids, List.mem_append, List.mem_cons] at hi ⊢
        rcases hi with h | h | h
        · exact Or.inl (Or.inl h)
        · exact Or.inl (Or.inr (Or.inl h))
        · rcases b i h with h' | h'
          · exact Or.inl (Or.inr (Or.inr h'))
          · exact Or.inr h'
      · intro i hi
        simp only [PNode.ids, List.mem_append, List.mem_cons] at hi ⊢
        rcases hi with h | h | h
        · exact Or.inl h
        · exact Or.inr (Or.inl h)
        · exact Or.inr (Or.inr (c i h))
      · simp only [PNode.ids, List.mem_append, List.mem_cons]
        exact Or.inr (Or.inr e)
    · obtain ⟨a, b, c, e⟩ := ihl
      refine ⟨a, ?_, ?_, ?_⟩
      · intro i hi
        simp only [PNode.ids, List.mem_append, List.mem_cons] at hi ⊢
        rcases hi with h | h | h
        · rcases b i h with h' | h'
          · exact Or.inl (Or.inl h')
          · exact Or.inr h'
        · exact Or.inl (Or.inr (Or.inl h))
        · exact Or.inl (Or.inr (Or.inr h))
      · intro i hi
        simp only [PNode.ids, List.mem_append, List.mem_cons] at hi ⊢
        rcases hi with h | h | h
        · exact Or.inl (c i h)
        · exact Or.inr (Or.inl h)
        · exact Or.inr (Or.inr h)
      · simp only [PNode.ids, List.mem_append, List.mem_cons]
        exact Or.inl e

theorem insert_at_nodup (p : Prefix) (n : Nat) {t : PNode} (hn : t.ids.Nodup)
    (hlt : ∀ i ∈ t.ids, i < n) : (insert_at p n t).root.ids.Nodup := by
  induction t with
  | null => simp [insert_at, PNode.ids_leaf]
  | node id bit pfx d l r ihl ihr =>
    have hb := fun i hi => hlt i hi
    rw [insert_at_node p n id bit pfx d l r _ rfl _ rfl]
    split_ifs <;> dsimp only
    · have e : (PNode.node (n + 1)
          (differBit p.bits ((PNode.node id bit pfx d l r).rep.getD p).bits (min bit p.bitlen))
          none none (PNode.node id bit pfx d l r) (PNode.leaf n p)).ids =
          (PNode.node id bit pfx d l r).ids ++ [n + 1, n] := by
        simp [PNode.ids, PNode.ids_leaf]
      rw [e, List.nodup_append]
      refine ⟨hn, by simp, ?_⟩
      intro i hi hi'
      have := hlt i hi
      simp only [List.mem_cons, List.mem_singleton, List.not_mem_nil, or_false] at hi'
      omega
    · have e : (PNode.node (n + 1)
          (differBit p.bits ((PNode.node id bit pfx d l r).rep.getD p).bits (min bit p.bitlen))
          none none (PNode.leaf n p) (PNode.node id bit pfx d l r)).ids =
          [n, n + 1] ++ (PNode.node id bit pfx d l r).ids := by
        simp [PNode.ids, PNode.ids_leaf]
      rw [e, List.nodup_append]
      refine ⟨by simp, hn, ?_⟩
      intro i hi hi'
      have := hlt i hi'
      simp only [List.mem_cons, List.mem_singleton, List.not_mem_nil, or_false] at hi
      omega
    · have e : (PNode.node n p.bitlen (some p) none .null (PNode.node id bit pfx d l r)).ids =
          n :: (PNode.node id bit pfx d l r).ids := by
        simp [PNode.ids]
      rw [e, List.nodup_cons]
      exact ⟨fun h => by have := hlt n h; omega, hn⟩
    · have e : (PNode.node n p.bitlen (some p) none (PNode.node id bit pfx d l r) .null).ids =
          (PNode.node id bit pfx d l r).ids ++ [n] := by
        simp [PNode.ids]
      rw [e, List.nodup_append]
      refine ⟨hn, by simp, ?_⟩
      intro i hi hi'
      have := hlt i hi
      simp only [List.mem_singleton] at hi'
      omega
    · exact hn
    · simp only [PNode.ids] at hn hlt ⊢
      rw [List.nodup_append] at hn ⊢
      obtain ⟨n1, n2, n3⟩ := hn
      rw [List.nodup_cons] at n2 ⊢
      obtain ⟨a, b, c, e⟩ := insert_at_ids p n r
      have hr := ihr n2.2 (fun i hi => hlt i (by simp [hi]))
      refine ⟨n1, ⟨?_, hr⟩, ?_⟩
      · intro h
        rcases b id h with h' | h'
        · exact n2.1 h'
        · have := hlt id (by simp); omega
      · intro i hi hi'
        rcases List.mem_cons.mp hi' with h | h
        · exact n3 hi (by rw [h]; simp)
        · rcases b i h with h' | h'
          · exact n3 hi (by simp [h'])
          · have := hlt i (by simp [hi]); omega
    · simp only [PNode.ids] at hn hlt ⊢
      rw [List.nodup_append] at hn ⊢
      obtain ⟨n1, n2, n3⟩ := hn
      obtain ⟨a, b, c, e⟩ := insert_at_ids p n l
      have hl := ihl n1 (fun i hi => hlt i (by simp [hi]))
      refine ⟨hl, n2, ?_⟩
      intro i hi hi'
      rcases b i hi with h' | h'
      · exact n3 h' hi'
      · have := hlt i (by simp only [List.mem_append]; exact Or.inr hi'); omega

/-! ## Removal -/

theorem collapse_prefixes (id bit : Nat) (pfx : Option Prefix) (d : Option VALUE)
    (l r : PNode) :
    (collapse id bit pfx d l r).prefixes = l.prefixes ++ pfx.toList ++ r.prefixes := by
  cases pfx <;> cases l <;> cases r <;> simp [collapse, PNode.prefixes]

theorem collapse_ids_sublist (id bit : Nat) (pfx : Option Prefix) (d : Option VALUE)
    (l r : PNode) : (collapse id bit pfx d l r).ids.Sublist (l.ids ++ id :: r.ids) := by
  cases pfx <;> cases l <;> cases r <;> simp [collapse, PNode.ids]

theorem inv_collapse {id bit : Nat} {pfx : Option Prefix} {d : Option VALUE} {l r : PNode}
    (hb : bit ≤ 32) (h2 : ∀ q, pfx = some q → q.bitlen = bit ∧ q.wf)
    (h4 : ∀ q ∈ l.prefixes, bit < q.bitlen ∧ bitAt q.bits bit = false)
    (h5 : ∀ q ∈ r.prefixes, bit < q.bitlen ∧ bitAt q.bits bit = true)
    (h6 : ∀ q ∈ l.prefixes ++ pfx.toList ++ r.prefixes,
      ∀ q' ∈ l.prefixes ++ pfx.toList ++ r.prefixes, agree q.bits q'.bits bit)
    (hl : Inv l) (hr : Inv r) : Inv (collapse id bit pfx d l r) := by
  cases pfx with
  | some q =>
    have e : collapse id bit (some q) d l r = .node id bit (some q) d l r := by
      cases l <;> cases r <;> rfl
    rw [e]
    exact ⟨hb, h2, (fun h => by cases h), h4, h5, h6, hl, hr⟩
  | none =>
    cases l with
    | null => cases r <;> exact hr
    | node lid lbit lpfx ld ll lr =>
      cases r with
      | null => exact hl
      | node rid rbit rpfx rd rl rr =>
        exact ⟨hb, h2, fun _ => ⟨by simp, by simp⟩, h4, h5, h6, hl, hr⟩

theorem remove_at_of_not_mem {t : PNode} (hinv : Inv t) {i : Nat} (hi : i ∉ t.ids) :
    remove_at i t = t := by
  induction t with
  | null => rfl
  | node id bit pfx d l r ihl ihr =>
    simp only [PNode.ids, List.mem_append, List.mem_cons, not_or] at hi
    obtain ⟨_, _, h3, _, _, _, hl, hr⟩ := hinv
    have hne : ¬ id = i := fun h => hi.2.1 h.symm
    simp only [remove_at, hne, if_false, ihl hl hi.1, ihr hr hi.2.2]
    cases pfx with
    | some q => cases l <;> cases r <;> rfl
    | none =>
      obtain ⟨a, b⟩ := h3 rfl
      cases l with
      | null => exact absurd rfl a
      | node _ _ _ _ _ _ =>
        cases r with
        | null => exact absurd rfl b
        | node _ _ _ _ _ _ => rfl

theorem remove_at_ids_sublist (i : Nat) (t : PNode) : (remove_at i t).ids.Sublist t.ids := by
  induction t with
  | null => exact List.Sublist.refl _
  | node id bit pfx d l r ihl ihr =>
    simp only [remove_at]
    split_ifs with h
    · cases l <;> cases r <;> simp [PNode.ids]
    · exact (collapse_ids_sublist id bit pfx d _ _).trans
        (List.Sublist.append ihl (List.Sublist.cons₂ id ihr))

theorem remove_at_spec {t : PNode} (hinv : Inv t) (hn : t.ids.Nodup) {i : Nat} {p : Prefix}
    (h : t.holds i p) :
    Inv (remove_at i t) ∧
    ∀ q, q ∈ (remove_at i t).prefixes ↔ q ∈ t.prefixes ∧ q ≠ p := by
  induction t with
  | null => exact h.elim
  | node id bit pfx d l r ihl ihr =>
    have hroot := hinv
    obtain ⟨hb32, h2, h3, h4, h5, h6, hl, hr⟩ := hinv
    simp only [PNode.ids] at hn
    rw [List.nodup_append] at hn
    obtain ⟨n1, n2, n3⟩ := hn
    rw [List.nodup_cons] at n2
    by_cases hid : id = i
    · -- the node itself
      subst hid
      have hs : pfx = some p := by
        rcases h with ⟨_, hs⟩ | hl' | hr'
        · exact hs
        · exact absurd (List.mem_cons_self _ _) (fun hm => n3 (PNode.holds_mem_ids hl') hm)
        · exact absurd (PNode.holds_mem_ids hr') n2.1
      subst hs
      have hpl : ∀ q ∈ l.prefixes, q ≠ p := fun q hq e => by
        have := (h4 q hq).1; have := (h2 p rfl).1; subst e; omega
      have hpr : ∀ q ∈ r.prefixes, q ≠ p := fun q hq e => by
        have := (h5 q hq).1; have := (h2 p rfl).1; subst e; omega
      cases l with
      | null =>
        cases r with
        | null =>
          simp only [remove_at, if_true]
          refine ⟨trivial, ?_⟩
          intro q; simp [PNode.prefixes]
        | node rid rbit rpfx rd rl rr =>
          simp only [remove_at, if_true]
          refine ⟨hr, ?_⟩
          intro q
          rw [PNode.mem_prefixes_node (l := .null)]
          simp only [PNode.prefixes, List.not_mem_nil, false_or, Option.some.injEq]
          constructor
          · intro hq; exact ⟨Or.inr hq, hpr q hq⟩
          · rintro ⟨hq | hq, hne⟩
            · exact absurd hq.symm hne
            · exact hq
      | node lid lbit lpfx ld ll lr =>
        cases r with
        | null =>
          simp only [remove_at, if_true]
          refine ⟨hl, ?_⟩
          intro q
          rw [PNode.mem_prefixes_node (r := .null)]
          simp only [PNode.prefixes, List.not_mem_nil, or_false, Option.some.injEq]
          constructor
          · intro hq; exact ⟨Or.inl hq, hpl q hq⟩
          · rintro ⟨hq | hq, hne⟩
            · exact hq
            · exact absurd hq.symm hne
        | node rid rbit rpfx rd rl rr =>
          simp only [remove_at, if_true]
          refine ⟨⟨hb32, (fun q hq => by cases hq), (fun _ => ⟨by simp, by simp⟩), h4, h5, ?_,
            hl, hr⟩, ?_⟩
          · intro q hq q' hq'
            apply h6 q _ q' _
            · simp only [Option.toList_none, List.append_nil, List.mem_append] at hq
              simp only [List.mem_append]
              rcases hq with a | a
              · exact Or.inl (Or.inl a)
              · exact Or.inr a
            · simp only [Option.toList_none, List.append_nil, List.mem_append] at hq'
              simp only [List.mem_append]
              rcases hq' with a | a
              · exact Or.inl (Or.inl a)
              · exact Or.inr a
          · intro q
            constructor
            · intro hq
              rcases PNode.mem_prefixes_node.mp hq with a | a | a
              · exact ⟨PNode.mem_prefixes_node.mpr (Or.inl a), hpl q a⟩
              · cases a
              · exact ⟨PNode.mem_prefixes_node.mpr (Or.inr (Or.inr a)), hpr q a⟩
            · rintro ⟨hq, hne⟩
              rcases PNode.mem_prefixes_node.mp hq with a | a | a
              · exact PNode.mem_prefixes_node.mpr (Or.inl a)
              · cases a; exact absurd rfl hne
              · exact PNode.mem_prefixes_node.mpr (Or.inr (Or.inr a))
    · -- below the node
      simp only [remove_at, hid, if_false]
      have hnotroot : ¬ (id = i ∧ pfx = some p) := fun a => hid a.1
      rcases h with a | hl' | hr'
      · exact absurd a hnotroot
      · have hir : i ∉ r.ids := fun hm => n3 (PNode.holds_mem_ids hl') (List.mem_cons_of_mem _ hm)
        rw [remove_at_of_not_mem hr hir]
        obtain ⟨i1, i2⟩ := ihl hl n1 hl'
        have hpl := (h4 p (PNode.holds_mem_prefixes hl'))
        refine ⟨inv_collapse hb32 h2 (fun q hq => h4 q ((i2 q).mp hq).1) h5 ?_ i1 hr, ?_⟩
        · intro q hq q' hq'
          apply h6 q _ q' _
          · simp only [List.mem_append] at hq ⊢
            rcases hq with (a | a) | a
            · exact Or.inl (Or.inl ((i2 q).mp a).1)
            · exact Or.inl (Or.inr a)
            · exact Or.inr a
          · simp only [List.mem_append] at hq' ⊢
            rcases hq' with (a | a) | a
            · exact Or.inl (Or.inl ((i2 q').mp a).1)
            · exact Or.inl (Or.inr a)
            · exact Or.inr a
        · intro q
          rw [collapse_prefixes, PNode.mem_prefixes_node]
          simp only [List.mem_append, i2]
          constructor
          · rintro ((⟨a, b⟩ | a) | a)
            · exact ⟨Or.inl a, b⟩
            · refine ⟨Or.inr (Or.inl ?_), ?_⟩
              · cases pfx with
                | none => simp at a
                | some q' => simp at a; rw [a]
              · intro e
                subst e
                cases pfx with
                | none => simp at a
                | some q' =>
                  simp at a; subst a
                  have := (h2 q rfl).1; omega
            · refine ⟨Or.inr (Or.inr a), ?_⟩
              intro e; subst e
              have := (h5 q a).2
              rw [hpl.2] at this; cases this
          · rintro ⟨a | a | a, b⟩
            · exact Or.inl (Or.inl ⟨a, b⟩)
            · exact Or.inl (Or.inr (by rw [a]; simp))
            · exact Or.inr a
      · have hil : i ∉ l.ids := fun hm => n3 hm (List.mem_cons_of_mem _ (PNode.holds_mem_ids hr'))
        rw [remove_at_of_not_mem hl hil]
        obtain ⟨i1, i2⟩ := ihr hr n2.2 hr'
        have hpr := (h5 p (PNode.holds_mem_prefixes hr'))
        refine ⟨inv_collapse hb32 h2 h4 (fun q hq => h5 q ((i2 q).mp hq).1) ?_ hl i1, ?_⟩
        · intro q hq q' hq'
          apply h6 q _ q' _
          · simp only [List.mem_append] at hq ⊢
            rcases hq with (a | a) | a
            · exact Or.inl (Or.inl a)
            · exact Or.inl (Or.inr a)
            · exact Or.inr ((i2 q).mp a).1
          · simp only [List.mem_append] at hq' ⊢
            rcases hq' with (a | a) | a
            · exact Or.inl (Or.inl a)
            · exact Or.inl (Or.inr a)
            · exact Or.inr ((i2 q').mp a).1
        · intro q
          rw [collapse_prefixes, PNode.mem_prefixes_node]
          simp only [List.mem_append, i2]
          constructor
          · rintro ((a | a) | ⟨a, b⟩)
            · refine ⟨Or.inl a, ?_⟩
              intro e; subst e
              have := (h4 q a).2
              rw [hpr.2] at this; cases this
            · refine ⟨Or.inr (Or.inl ?_), ?_⟩
              · cases pfx with
                | none => simp at a
                | some q' => simp at a; rw [a]
              · intro e
                subst e
                cases pfx with
                | none => simp at a
                | some q' =>
                  simp at a; subst a
                  have := (h2 q rfl).1; omega
            · exact ⟨Or.inr (Or.inr a), b⟩
          · rintro ⟨a | a | a, b⟩
            · exact Or.inl (Or.inl a)
            · exact Or.inl (Or.inr (by rw [a]; simp))
            · exact Or.inr ⟨a, b⟩

/-! ## Best search -/

theorem is_prefix_of_iff {p q : Prefix} :
    is_prefix_of p q = true ↔ p.bitlen ≤ q.bitlen ∧ agree p.bits q.bits p.bitlen := by
  unfold is_prefix_of
  simp only [Bool.and_eq_true, decide_eq_true_eq]

/-- One step of the best search: the outcome at a node whose walk goes on into `c` (or stops,
`c` being the empty subtree), given the outcome of the walk in `c`. -/
theorem search_best_step {id bit : Nat} {pfx : Option Prefix} {d : Option VALUE}
    {l r c : PNode} {q : Prefix} {best res : Option Nat}
    (hinv : Inv (.node id bit pfx d l r))
    (hsub : ∀ i pb, c.holds i pb → (PNode.node id bit pfx d l r).holds i pb)
    (hcs : ∀ p ∈ c.prefixes, p ∈ (PNode.node id bit pfx d l r).prefixes ∧ bit < p.bitlen)
    (honly : ∀ p ∈ (PNode.node id bit pfx d l r).prefixes, is_prefix_of p q = true →
      pfx = some p ∨ p ∈ c.prefixes)
    (ih : ((∀ p ∈ c.prefixes, is_prefix_of p q = false) →
        res = (if pfx.any (fun p => is_prefix_of p q) then some id else best)) ∧
      ((∃ p ∈ c.prefixes, is_prefix_of p q = true) →
        ∃ i pb, res = some i ∧ c.holds i pb ∧ is_prefix_of pb q = true ∧
          ∀ p ∈ c.prefixes, is_prefix_of p q = true → p.bitlen ≤ pb.bitlen)) :
    ((∀ p ∈ (PNode.node id bit pfx d l r).prefixes, is_prefix_of p q = false) → res = best) ∧
    ((∃ p ∈ (PNode.node id bit pfx d l r).prefixes, is_prefix_of p q = true) →
      ∃ i pb, res = some i ∧ (PNode.node id bit pfx d l r).holds i pb ∧
        is_prefix_of pb q = true ∧
        ∀ p ∈ (PNode.node id bit pfx d l r).prefixes, is_prefix_of p q = true →
          p.bitlen ≤ pb.bitlen) := by
  obtain ⟨ih1, ih2⟩ := ih
  have h2 := hinv.2.1
  constructor
  · intro hno
    have hc : ∀ p ∈ c.prefixes, is_prefix_of p q = false := fun p hp => hno p (hcs p hp).1
    rw [ih1 hc]
    cases pfx with
    | none => simp
    | some p0 =>
      have := hno p0 (PNode.mem_prefixes_node.mpr (Or.inr (Or.inl rfl)))
      simp [this]
  · rintro ⟨p, hp, hpq⟩
    by_cases hc : ∃ p ∈ c.prefixes, is_prefix_of p q = true
    · obtain ⟨i, pb, e, hh, hm, hmax⟩ := ih2 hc
      refine ⟨i, pb, e, hsub i pb hh, hm, ?_⟩
      intro p' hp' hp'q
      rcases honly p' hp' hp'q with hs | hin
      · have := (h2 p' hs).1
        have := (hcs pb (PNode.holds_mem_prefixes hh)).2
        omega
      · exact hmax p' hin hp'q
    · have hc' : ∀ p ∈ c.prefixes, is_prefix_of p q = false := by
        intro p' hp'
        cases hv : is_prefix_of p' q
        · rfl
        · exact absurd ⟨p', hp', hv⟩ hc
      have hs : pfx = some p := by
        rcases honly p hp hpq with hs | hin
        · exact hs
        · rw [hc' p hin] at hpq; cases hpq
      subst hs
      refine ⟨id, p, ?_, Or.inl ⟨rfl, rfl⟩, hpq, ?_⟩
      · rw [ih1 hc']; simp [hpq]
      · intro p' hp' hp'q
        rcases honly p' hp' hp'q with hs | hin
        · cases hs; exact le_refl _
        · rw [hc' p' hin] at hp'q; cases hp'q

theorem search_best_spec {t : PNode} (hinv : Inv t) (q : Prefix) (best : Option Nat) :
    ((∀ p ∈ t.prefixes, is_prefix_of p q = false) → search_best t q best = best) ∧
    ((∃ p ∈ t.prefixes, is_prefix_of p q = true) →
      ∃ i pb, search_best t q best = some i ∧ t.holds i pb ∧ is_prefix_of pb q = true ∧
        ∀ p ∈ t.prefixes, is_prefix_of p q = true → p.bitlen ≤ pb.bitlen) := by
  induction t generalizing best with
  | null =>
    refine ⟨fun _ => rfl, ?_⟩
    rintro ⟨p, hp, _⟩
    simp [PNode.prefixes] at hp
  | node id bit pfx d l r ihl ihr =>
    have hroot := hinv
    obtain ⟨hb32, h2, h3, h4, h5, h6, hl, hr⟩ := hinv
    have key : search_best (.node id bit pfx d l r) q best =
        if bit < q.bitlen then
          if bitAt q.bits bit = true then
            search_best r q (if pfx.any (fun p => is_prefix_of p q) then some id else best)
          else search_best l q (if pfx.any (fun p => is_prefix_of p q) then some id else best)
        else (if pfx.any (fun p => is_prefix_of p q) then some id else best) := rfl
    rw [key]
    by_cases c₁ : bit < q.bitlen
    · rw [if_pos c₁]
      by_cases c₂ : bitAt q.bits bit = true
      · -- walk on to the right
        rw [if_pos c₂]
        apply search_best_step (c := r) hroot
        · exact fun i pb h => Or.inr (Or.inr h)
        · exact fun p hp => ⟨PNode.mem_prefixes_node.mpr (Or.inr (Or.inr hp)), (h5 p hp).1⟩
        · intro p hp hpq
          rcases PNode.mem_prefixes_node.mp hp with a | a | a
          · have hb := h4 p a
            have := (is_prefix_of_iff.mp hpq).2 bit hb.1
            rw [hb.2, c₂] at this; cases this
          · exact Or.inl a
          · exact Or.inr a
        · exact ihr hr _
      · -- walk on to the left
        rw [if_neg c₂]
        apply search_best_step (c := l) hroot
        · exact fun i pb h => Or.inr (Or.inl h)
        · exact fun p hp => ⟨PNode.mem_prefixes_node.mpr (Or.inl hp), (h4 p hp).1⟩
        · intro p hp hpq
          rcases PNode.mem_prefixes_node.mp hp with a | a | a
          · exact Or.inr a
          · exact Or.inl a
          · have hb := h5 p a
            have := (is_prefix_of_iff.mp hpq).2 bit hb.1
            rw [hb.2] at this
            exact absurd this.symm c₂
        · exact ihl hl _
    · -- the walk stops here
      rw [if_neg c₁]
      apply search_best_step (c := .null) hroot
      · exact fun i pb h => h.elim
      · intro p hp; simp [PNode.prefixes] at hp
      · intro p hp hpq
        rcases PNode.mem_prefixes_node.mp hp with a | a | a
        · have := (h4 p a).1; have := (is_prefix_of_iff.mp hpq).1; omega
        · exact Or.inl a
        · have := (h5 p a).1; have := (is_prefix_of_iff.mp hpq).1; omega
      · refine ⟨fun _ => rfl, ?_⟩
        rintro ⟨p, hp, _⟩
        simp [PNode.prefixes] at hp

/-! ## Payload slot and pointer dereference -/

theorem set_data_prefixes (i : Nat) (v : VALUE) (t : PNode) :
    (set_data i v t).prefixes = t.prefixes := by
  induction t with
  | null => rfl
  | node id bit pfx d l r ihl ihr => simp [set_data, PNode.prefixes, ihl, ihr]

theorem set_data_ids (i : Nat) (v : VALUE) (t : PNode) : (set_data i v t).ids = t.ids := by
  induction t with
  | null => rfl
  | node id bit pfx d l r ihl ihr => simp [set_data, PNode.ids, ihl, ihr]

theorem set_data_eq_null (i : Nat) (v : VALUE) (t : PNode) :
    set_data i v t = .null ↔ t = .null := by
  cases t <;> simp [set_data]

theorem set_data_inv (i : Nat) (v : VALUE) {t : PNode} (h : Inv t) : Inv (set_data i v t) := by
  induction t with
  | null => exact trivial
  | node id bit pfx d l r ihl ihr =>
    obtain ⟨hb32, h2, h3, h4, h5, h6, hl, hr⟩ := h
    simp only [set_data]
    refine ⟨hb32, h2, ?_, ?_, ?_, ?_, ihl hl, ihr hr⟩
    · intro hn
      have := h3 hn
      exact ⟨fun e => this.1 ((set_data_eq_null i v l).mp e),
        fun e => this.2 ((set_data_eq_null i v r).mp e)⟩
    · rw [set_data_prefixes]; exact h4
    · rw [set_data_prefixes]; exact h5
    · rw [set_data_prefixes, set_data_prefixes]; exact h6

theorem set_data_holds (i : Nat) (v : VALUE) (t : PNode) (j : Nat) (q : Prefix) :
    (set_data i v t).holds j q ↔ t.holds j q := by
  induction t with
  | null => exact Iff.rfl
  | node id bit pfx d l r ihl ihr => simp only [set_data, PNode.holds, ihl, ihr]

theorem set_data_search_exact (i : Nat) (v : VALUE) (t : PNode) (p : Prefix) :
    search_exact (set_data i v t) p = search_exact t p := by
  induction t with
  | null => rfl
  | node id bit pfx d l r ihl ihr => simp only [set_data, search_exact, ihl, ihr]

theorem set_data_search_best (i : Nat) (v : VALUE) (t : PNode) (p : Prefix)
    (best : Option Nat) : search_best (set_data i v t) p best = search_best t p best := by
  induction t generalizing best with
  | null => rfl
  | node id bit pfx d l r ihl ihr => simp only [set_data, search_best, ihl, ihr]

theorem walk_inorder_prefixes (t : PNode) : (walk_inorder t).map Prod.fst = t.prefixes := by
  induction t with
  | null => rfl
  | node id bit pfx d l r ihl ihr =>
    cases pfx <;> simp [walk_inorder, PNode.prefixes, ihl, ihr]

theorem patricia_walk_inorder_eq (t : PNode) : patricia_walk_inorder t = t.prefixes.length := by
  unfold patricia_walk_inorder
  rw [← walk_inorder_prefixes, List.length_map]

theorem PNode.find_eq_none {t : PNode} {i : Nat} (h : i ∉ t.ids) : t.find i = none := by
  induction t with
  | null => rfl
  | node id bit pfx d l r ihl ihr =>
    simp only [PNode.ids, List.mem_append, List.mem_cons, not_or] at h
    have hne : ¬ id = i := fun e => h.2.1 e.symm
    simp only [PNode.find, hne, if_false, ihl h.1, ihr h.2.2]

theorem PNode.find_set_data (i : Nat) (v : VALUE) (t : PNode) :
    (set_data i v t).find i = (t.find i).map fun n => (n.1, some v) := by
  induction t with
  | null => rfl
  | node id bit pfx d l r ihl ihr =>
    simp only [set_data, PNode.find]
    split_ifs with h
    · rfl
    · rw [ihl, ihr]
      cases PNode.find i l <;> simp

theorem PNode.find_set_data_ne {i j : Nat} (h : i ≠ j) (v : VALUE) (t : PNode) :
    (set_data i v t).find j = t.find j := by
  induction t with
  | null => rfl
  | node id bit pfx d l r ihl ihr =>
    simp only [set_data, PNode.find, ihl, ihr]
    split_ifs with h₁ h₂
    · exact absurd (h₂.symm.trans h₁) h
    all_goals rfl

theorem PNode.find_of_holds {t : PNode} (hn : t.ids.Nodup) {i : Nat} {p : Prefix}
    (h : t.holds i p) : ∃ d, t.find i = some (some p, d) := by
  induction t with
  | null => exact h.elim
  | node id bit pfx d l r ihl ihr =>
    simp only [PNode.ids] at hn
    rw [List.nodup_append] at hn
    obtain ⟨n1, n2, n3⟩ := hn
    rw [List.nodup_cons] at n2
    simp only [PNode.find]
    rcases h with ⟨e, hs⟩ | hl | hr
    · exact ⟨d, by simp [e, hs]⟩
    · have hne : ¬ id = i := fun e =>
        n3 (PNode.holds_mem_ids hl) (by rw [e]; exact List.mem_cons_self _ _)
      obtain ⟨d', hd'⟩ := ihl n1 hl
      exact ⟨d', by simp [hne, hd']⟩
    · have hne : ¬ id = i := fun e => n2.1 (by rw [e]; exact PNode.holds_mem_ids hr)
      have hil : i ∉ l.ids := fun hm =>
        n3 hm (List.mem_cons_of_mem _ (PNode.holds_mem_ids hr))
      obtain ⟨d', hd'⟩ := ihr n2.2 hr
      exact ⟨d', by simp [hne, PNode.find_eq_none hil, hd']⟩

/-! ## Tree operations keep the tree well-formed -/

theorem New_Patricia_wf (m : Nat) : (New_Patricia m).wf :=
  ⟨trivial, List.nodup_nil, fun _ h => by simp [New_Patricia, PNode.ids] at h⟩

theorem patricia_lookup_wf {t : patricia_tree_t} (h : t.wf) {p : Prefix} (hp : p.wf) :
    (patricia_lookup t p).1.wf := by
  obtain ⟨hinv, hnd, hlt⟩ := h
  obtain ⟨a, b, _, _⟩ := insert_at_ids p t.next_id t.head
  refine ⟨(insert_at_spec hinv t.next_id hp).1, insert_at_nodup p t.next_id hnd hlt, ?_⟩
  intro i hi
  rcases b i hi with h' | h'
  · exact lt_of_lt_of_le (hlt i h') a
  · exact h'.2

theorem patricia_lookup_mem {t : patricia_tree_t} (h : t.wf) {p : Prefix} (hp : p.wf)
    (q : Prefix) :
    q ∈ (patricia_lookup t p).1.head.prefixes ↔ q = p ∨ q ∈ t.head.prefixes :=
  (insert_at_spec h.1 t.next_id hp).2.1 q

theorem patricia_lookup_holds {t : patricia_tree_t} (h : t.wf) {p : Prefix} (hp : p.wf) :
    (patricia_lookup t p).1.head.holds (patricia_lookup t p).2 p :=
  (insert_at_spec h.1 t.next_id hp).2.2.1

theorem patricia_lookup_search {t : patricia_tree_t} (h : t.wf) {p : Prefix} (hp : p.wf) :
    patricia_search_exact (patricia_lookup t p).1 p = some (patricia_lookup t p).2 :=
  search_exact_of_holds (patricia_lookup_wf h hp).1 (patricia_lookup_holds h hp)

theorem patricia_lookup_of_search {t : patricia_tree_t} (h : t.wf) {p : Prefix} (hp : p.wf)
    {i : Nat} (hs : patricia_search_exact t p = some i) : (patricia_lookup t p).2 = i := by
  have h1 := search_exact_holds h.1 hp hs
  have h2 := insert_at_holds_of_holds p t.next_id h1
  exact Inv.holds_unique (patricia_lookup_wf h hp).1 (patricia_lookup_holds h hp) h2

theorem PATRICIA_DATA_SET_wf {t : patricia_tree_t} (h : t.wf) (i : Nat) (v : VALUE) :
    (PATRICIA_DATA_SET t i v).wf := by
  obtain ⟨hinv, hnd, hlt⟩ := h
  refine ⟨set_data_inv i v hinv, ?_, ?_⟩
  · simp only [PATRICIA_DATA_SET, set_data_ids]; exact hnd
  · simp only [PATRICIA_DATA_SET, set_data_ids]; exact hlt

theorem patricia_remove_wf {t : patricia_tree_t} (h : t.wf) {i : Nat} {p : Prefix}
    (hh : t.head.holds i p) : (patricia_remove t i).wf := by
  obtain ⟨hinv, hnd, hlt⟩ := h
  unfold patricia_remove
  rw [if_pos (PNode.holds_mem_ids hh)]
  refine ⟨(remove_at_spec hinv hnd hh).1, (remove_at_ids_sublist i t.head).nodup hnd, ?_⟩
  intro j hj
  exact hlt j ((remove_at_ids_sublist i t.head).subset hj)

theorem patricia_remove_mem {t : patricia_tree_t} (h : t.wf) {i : Nat} {p : Prefix}
    (hh : t.head.holds i p) (q : Prefix) :
    q ∈ (patricia_remove t i).head.prefixes ↔ q ∈ t.head.prefixes ∧ q ≠ p := by
  unfold patricia_remove
  rw [if_pos (PNode.holds_mem_ids hh)]
  exact (remove_at_spec h.1 h.2.1 hh).2 q

theorem Inv.eq_null_of_prefixes {t : PNode} (h : Inv t) (he : t.prefixes = []) : t = .null := by
  by_contra hn
  obtain ⟨q, hq⟩ := Inv.rep_isSome h hn
  have := PNode.rep_mem hq
  rw [he] at this
  simp at this

theorem length_eq_of_mem_iff {l₁ l₂ : List Prefix} (h₁ : l₁.Nodup) (h₂ : l₂.Nodup)
    (h : ∀ q, q ∈ l₁ ↔ q ∈ l₂) : l₁.length = l₂.length :=
  ((List.perm_ext_iff_of_nodup h₁ h₂).mpr h).length_eq

/-! ## The adapter functions on a valid key -/

theorem prefix_of_key_some {k : VALUE} {p : Prefix} (h : prefix_of_key k = some p) :
    ∃ oid text, k = .str oid text ∧ ascii2prefix (c_string text) = some p := by
  cases k <;> simp [prefix_of_key, STR2CSTR] at h
  exact ⟨_, _, rfl, h⟩

theorem prefix_of_key_wf {k : VALUE} {p : Prefix} (h : prefix_of_key k = some p) : p.wf := by
  obtain ⟨_, _, _, h'⟩ := prefix_of_key_some h
  exact ascii2prefix_wf h'

theorem p_add_eq (w : World) (oid : Nat) (text : String) (rest : List VALUE) (p : Prefix)
    (hlen : rest.length ≤ 1) (hp : ascii2prefix (c_string text) = some p) :
    p_add (.str oid text :: rest) w =
      .ret (.node (patricia_lookup w.tree p).2)
        { tree := PATRICIA_DATA_SET (patricia_lookup w.tree p).1 (patricia_lookup w.tree p).2
            (kept_payload (.str oid text :: rest) w.next_oid).1
          next_oid := (kept_payload (.str oid text :: rest) w.next_oid).2
          calls := w.calls ++ [Call.ascii2prefix (c_string text), Call.patricia_lookup (some p),
            Call.PATRICIA_DATA_SET (patricia_lookup w.tree p).2
              (kept_payload (.str oid text :: rest) w.next_oid).1]
          out := w.out } := by
  have h1 : ¬ ((VALUE.str oid text :: rest).length > 2 ∨ (VALUE.str oid text :: rest).length < 1) := by
    simp only [List.length_cons]; omega
  simp only [p_add, h1, if_false, List.getD_cons_zero, STR2CSTR, hp, World.call, kept_payload,
    List.append_assoc]
  rfl

theorem is_copy_of_kept_two (k d : VALUE) (n : Nat) : is_copy_of (kept_payload [k, d] n).1 d := by
  cases d <;> simp [kept_payload, is_T_STRING, rb_obj_dup, is_copy_of]

theorem kept_one (k : VALUE) (n : Nat) : kept_payload [k] n = (.str n "", n + 1) := by
  simp [kept_payload, rb_str_new_empty]

/-- Everything `p_add` does on a valid key, in a well-formed world. -/
theorem p_add_spec {w : World} (hw : w.wf) {k : VALUE} {p : Prefix} (hk : prefix_of_key k = some p)
    (rest : List VALUE) (hlen : rest.length ≤ 1) :
    ∃ i text, (p_add (k :: rest) w).value = some (.node i) ∧
      STR2CSTR k = some text ∧
      (p_add (k :: rest) w).world.wf ∧
      (∀ q, q ∈ (p_add (k :: rest) w).world.stored ↔ q = p ∨ q ∈ w.stored) ∧
      (p_add (k :: rest) w).world.tree.head.holds i p ∧
      (p_add (k :: rest) w).world.tree.head.find i =
        some (some p, some (kept_payload (k :: rest) w.next_oid).1) ∧
      (p_add (k :: rest) w).world.calls = w.calls ++ [Call.ascii2prefix text,
        Call.patricia_lookup (some p),
        Call.PATRICIA_DATA_SET i (kept_payload (k :: rest) w.next_oid).1] ∧
      (p_add (k :: rest) w).world.out = w.out ∧
      (∀ j, patricia_search_exact w.tree p = some j → i = j) := by
  obtain ⟨oid, text, rfl, hp⟩ := prefix_of_key_some hk
  have hpw := ascii2prefix_wf hp
  rw [p_add_eq w oid text rest p hlen hp]
  have hlw := patricia_lookup_wf hw hpw
  have hh := patricia_lookup_holds hw hpw
  refine ⟨(patricia_lookup w.tree p).2, c_string text, rfl, rfl, PATRICIA_DATA_SET_wf hlw _ _, ?_, ?_, ?_,
    rfl, rfl, ?_⟩
  · intro q
    simp only [Outcome.world, World.stored, PATRICIA_DATA_SET, set_data_prefixes]
    exact patricia_lookup_mem hw hpw q
  · simp only [Outcome.world, PATRICIA_DATA_SET]
    exact (set_data_holds _ _ _ _ _).mpr hh
  · simp only [Outcome.world, PATRICIA_DATA_SET]
    rw [PNode.find_set_data]
    obtain ⟨d, hd⟩ := PNode.find_of_holds hlw.2.1 hh
    rw [hd]; rfl
  · intro j hj
    exact patricia_lookup_of_search hw hpw hj

/-- Everything `p_remove` does on a valid key, in a well-formed world. -/
theorem p_remove_spec {w : World} (hw : w.wf) {k : VALUE} {p : Prefix}
    (hk : prefix_of_key k = some p) :
    ∃ text, STR2CSTR k = some text ∧
    (p_remove k w).world.wf ∧ (p_remove k w).world.out = w.out ∧
    (p_remove k w).world.next_oid = w.next_oid ∧
    (p ∈ w.stored →
      (p_remove k w).value = some .Qtrue ∧
      (∃ i, w.tree.head.holds i p ∧ (p_remove k w).world.calls = w.calls ++
        [Call.ascii2prefix text, Call.patricia_search_exact (some p), Call.patricia_remove i]) ∧
      ∀ q, q ∈ (p_remove k w).world.stored ↔ q ∈ w.stored ∧ q ≠ p) ∧
    (p ∉ w.stored →
      (p_remove k w).value = some .Qfalse ∧ (p_remove k w).world.tree = w.tree ∧
      (p_remove k w).world.calls = w.calls ++
        [Call.ascii2prefix text, Call.patricia_search_exact (some p)]) := by
  obtain ⟨oid, text, rfl, hp⟩ := prefix_of_key_some hk
  have hpw := ascii2prefix_wf hp
  refine ⟨c_string text, rfl, ?_⟩
  cases hs : patricia_search_exact w.tree p with
  | none =>
    have hnot : p ∉ w.stored := (search_exact_eq_none_iff hw.1 hpw).mp hs
    have e : p_remove (.str oid text) w = .ret .Qfalse
        ((w.call (Call.ascii2prefix (c_string text))).call (Call.patricia_search_exact (some p))) := by
      simp only [p_remove, STR2CSTR, hp, hs]
    rw [e]
    refine ⟨hw, rfl, rfl, fun h => absurd h hnot, fun _ => ⟨rfl, rfl, ?_⟩⟩
    simp [Outcome.world, World.call]
  | some i =>
    have hh : w.tree.head.holds i p := search_exact_holds hw.1 hpw hs
    have hin : p ∈ w.stored := PNode.holds_mem_prefixes hh
    have e : p_remove (.str oid text) w = .ret .Qtrue
        { (((w.call (Call.ascii2prefix (c_string text))).call (Call.patricia_search_exact (some p))).call
            (Call.patricia_remove i)) with tree := patricia_remove w.tree i } := by
      simp only [p_remove, STR2CSTR, hp, hs]
    rw [e]
    refine ⟨patricia_remove_wf hw hh, rfl, rfl, fun _ => ⟨rfl, ⟨i, hh, ?_⟩, ?_⟩,
      fun h => absurd hin h⟩
    · simp [Outcome.world, World.call]
    · intro q
      exact patricia_remove_mem hw hh q

/-- `p_match_exact` on a valid key, in a well-formed world. -/
theorem p_match_exact_spec {w : World} (hw : w.wf) {k : VALUE} {p : Prefix}
    (hk : prefix_of_key k = some p) :
    (p ∉ w.stored → (p_match_exact k w).value = some .Qfalse) ∧
    (∀ i, w.tree.head.holds i p → (p_match_exact k w).value = some (.node i)) ∧
    (p_match_exact k w).world.tree = w.tree ∧
    (p_match_exact k w).world.next_oid = w.next_oid := by
  obtain ⟨oid, text, rfl, hp⟩ := prefix_of_key_some hk
  have hpw := ascii2prefix_wf hp
  refine ⟨?_, ?_, ?_, ?_⟩
  · intro hnot
    have hs := (search_exact_eq_none_iff hw.1 hpw).mpr hnot
    simp only [p_match_exact, STR2CSTR, hp, patricia_search_exact, hs, Outcome.value]
  · intro i hh
    have hs := search_exact_of_holds hw.1 hh
    simp only [p_match_exact, STR2CSTR, hp, patricia_search_exact, hs, Outcome.value]
  · simp only [p_match_exact, STR2CSTR, hp]
    cases patricia_search_exact w.tree p <;> rfl
  · simp only [p_match_exact, STR2CSTR, hp]
    cases patricia_search_exact w.tree p <;> rfl

theorem p_num_nodes_value (w : World) :
    (p_num_nodes w).value = some (.fixnum (w.stored.length : Nat)) := by
  simp only [p_num_nodes, Outcome.value, patricia_walk_inorder_eq, World.stored]

theorem World.stored_nodup {w : World} (hw : w.wf) : w.stored.Nodup := Inv.nodup hw.1

theorem p_new_wf : p_new.wf := New_Patricia_wf 32

theorem Op.run_wf {w : World} (hw : w.wf) (o : Op) (ho : (prefix_of_key o.key).isSome) :
    (o.run w).wf := by
  obtain ⟨p, hp⟩ := Option.isSome_iff_exists.mp ho
  cases o with
  | add k d =>
    have hp' : prefix_of_key k = some p := hp
    obtain ⟨i, text, _, _, h, _⟩ := p_add_spec hw hp' [d] (by simp)
    exact h
  | add_key k =>
    have hp' : prefix_of_key k = some p := hp
    obtain ⟨i, text, _, _, h, _⟩ := p_add_spec hw hp' [] (by simp)
    exact h
  | remove k =>
    have hp' : prefix_of_key k = some p := hp
    obtain ⟨text, _, h, _⟩ := p_remove_spec hw hp'
    exact h

theorem Op.run_stored {w : World} (hw : w.wf) (o : Op) {p : Prefix}
    (hp : prefix_of_key o.key = some p) (q : Prefix) :
    q ∈ (o.run w).stored ↔
      match o with
      | .add _ _ => q = p ∨ q ∈ w.stored
      | .add_key _ => q = p ∨ q ∈ w.stored
      | .remove _ => q ∈ w.stored ∧ q ≠ p := by
  cases o with
  | add k d =>
    have hp' : prefix_of_key k = some p := hp
    obtain ⟨i, text, _, _, _, h, _⟩ := p_add_spec hw hp' [d] (by simp)
    exact h q
  | add_key k =>
    have hp' : prefix_of_key k = some p := hp
    obtain ⟨i, text, _, _, _, h, _⟩ := p_add_spec hw hp' [] (by simp)
    exact h q
  | remove k =>
    have hp' : prefix_of_key k = some p := hp
    obtain ⟨text, _, _, _, _, h1, h2⟩ := p_remove_spec hw hp'
    by_cases hin : p ∈ w.stored
    · exact (h1 hin).2.2 q
    · have e : (Op.run w (.remove k)).stored = w.stored := by
        show (p_remove k w).world.tree.head.prefixes = _
        rw [(h2 hin).2.1]; rfl
      rw [e]
      constructor
      · intro h; exact ⟨h, fun e' => hin (e' ▸ h)⟩
      · exact fun h => h.1

/-! ## Runs of calls -/

theorem add_all_spec (adds : List (VALUE × VALUE))
    (hadds : ∀ a ∈ adds, (prefix_of_key a.1).isSome) {w : World} (hw : w.wf) :
    (add_all adds w).wf ∧
    ∀ q, q ∈ (add_all adds w).stored ↔ q ∈ added adds ∨ q ∈ w.stored := by
  induction adds generalizing w with
  | nil => exact ⟨hw, fun q => by simp [add_all, added]⟩
  | cons a adds ih =>
    obtain ⟨p, hp⟩ := Option.isSome_iff_exists.mp (hadds a (List.mem_cons_self _ _))
    obtain ⟨i, text, _, _, hwf, hmem, _⟩ := p_add_spec hw hp [a.2] (by simp)
    obtain ⟨h1, h2⟩ := ih (fun b hb => hadds b (List.mem_cons_of_mem _ hb)) hwf
    have e : add_all (a :: adds) w = add_all adds (p_add [a.1, a.2] w).world := rfl
    rw [e]
    refine ⟨h1, ?_⟩
    intro q
    rw [h2 q, hmem q]
    simp only [added, List.filterMap_cons, hp, List.mem_cons]
    tauto

theorem run_all_spec (ops : List Op) (hops : ∀ o ∈ ops, (prefix_of_key o.key).isSome)
    {w : World} (hw : w.wf) (present : List Prefix) (hn : present.Nodup)
    (hmem : ∀ q, q ∈ w.stored ↔ q ∈ present) :
    (run_all ops w).wf ∧ (ops.foldl Op.track present).Nodup ∧
    ∀ q, q ∈ (run_all ops w).stored ↔ q ∈ ops.foldl Op.track present := by
  induction ops generalizing w present with
  | nil => exact ⟨hw, hn, hmem⟩
  | cons o ops ih =>
    have ho := hops o (List.mem_cons_self _ _)
    obtain ⟨p, hp⟩ := Option.isSome_iff_exists.mp ho
    have hwf := Op.run_wf hw o ho
    have hst := Op.run_stored hw o hp
    have e : run_all (o :: ops) w = run_all ops (o.run w) := rfl
    have e' : (o :: ops).foldl Op.track present = ops.foldl Op.track (o.track present) := rfl
    rw [e, e']
    apply ih (fun b hb => hops b (List.mem_cons_of_mem _ hb)) hwf
    · cases o with
      | add k d =>
        have hp' : prefix_of_key k = some p := hp
        simp only [Op.track, hp']
        split_ifs with h
        · exact hn
        · exact List.nodup_cons.mpr ⟨h, hn⟩
      | add_key k =>
        have hp' : prefix_of_key k = some p := hp
        simp only [Op.track, hp']
        split_ifs with h
        · exact hn
        · exact List.nodup_cons.mpr ⟨h, hn⟩
      | remove k =>
        have hp' : prefix_of_key k = some p := hp
        simp only [Op.track, hp']
        exact hn.erase p
    · intro q
      rw [hst q]
      cases o with
      | add k d =>
        have hp' : prefix_of_key k = some p := hp
        simp only [Op.track, hp', hmem q]
        split_ifs with h
        · constructor
          · rintro (e | h')
            · rw [e]; exact h
            · exact h'
          · exact fun h' => Or.inr h'
        · simp only [List.mem_cons]
      | add_key k =>
        have hp' : prefix_of_key k = some p := hp
        simp only [Op.track, hp', hmem q]
        split_ifs with h
        · constructor
          · rintro (e | h')
            · rw [e]; exact h
            · exact h'
          · exact fun h' => Or.inr h'
        · simp only [List.mem_cons]
      | remove k =>
        have hp' : prefix_of_key k = some p := hp
        simp only [Op.track, hp', hmem q, hn.mem_erase_iff]
        tauto

/-! ## Best match and payload access through the adapter -/

theorem longest_match_congr {S S' : List Prefix} (h : ∀ q, q ∈ S ↔ q ∈ S') {q : Prefix}
    {w : World} {v : Option VALUE} (hm : longest_match S q w v) : longest_match S' q w v := by
  unfold longest_match at hm ⊢
  split at hm
  · obtain ⟨pb, d, h1, h2, h3, h4⟩ := hm
    exact ⟨pb, d, h1, (h pb).mp h2, h3, fun p hp => h4 p ((h p).mpr hp)⟩
  · exact fun p hp => hm p ((h p).mpr hp)
  · exact hm.elim

theorem p_match_spec {w : World} (hw : w.wf) {k : VALUE} {q : Prefix}
    (hk : prefix_of_key k = some q) :
    longest_match w.stored q w (p_match k w).value ∧ (p_match k w).world.tree = w.tree := by
  obtain ⟨oid, text, rfl, hp⟩ := prefix_of_key_some hk
  obtain ⟨s1, s2⟩ := search_best_spec hw.1 q none
  by_cases hex : ∃ p ∈ w.tree.head.prefixes, is_prefix_of p q = true
  · obtain ⟨i, pb, e, hh, hm, hmax⟩ := s2 hex
    obtain ⟨d, hd⟩ := PNode.find_of_holds hw.2.1 hh
    have ev : p_match (.str oid text) w = .ret (.node i)
        ((w.call (Call.ascii2prefix (c_string text))).call (Call.patricia_search_best (some q))) := by
      simp only [p_match, STR2CSTR, hp, patricia_search_best, e]
    rw [ev]
    exact ⟨⟨pb, d, hd, PNode.holds_mem_prefixes hh, hm, hmax⟩, rfl⟩
  · have hno : ∀ p ∈ w.tree.head.prefixes, is_prefix_of p q = false := by
      intro p hp'
      cases hv : is_prefix_of p q
      · rfl
      · exact absurd ⟨p, hp', hv⟩ hex
    have e := s1 hno
    have ev : p_match (.str oid text) w = .ret .Qfalse
        ((w.call (Call.ascii2prefix (c_string text))).call (Call.patricia_search_best (some q))) := by
      simp only [p_match, STR2CSTR, hp, patricia_search_best, e]
    rw [ev]
    exact ⟨hno, rfl⟩

theorem p_data_spec {w : World} {i : Nat} {pfx : Option Prefix} {v : VALUE}
    (h : w.tree.head.find i = some (pfx, some v)) :
    ∃ v', (p_data (.node i) w).value = some v' ∧ is_copy_of v' v ∧
      (p_data (.node i) w).world.tree = w.tree ∧
      (p_data (.node i) w).world.tree.head.find i = some (pfx, some v) := by
  simp only [p_data, h, Option.getD_some]
  cases v <;> simp [is_T_STRING, Outcome.value, Outcome.world, is_copy_of, rb_obj_dup, h]

/-! ## Calls made by the adapter functions -/

theorem p_add_no_destroy (argv : List VALUE) (w : World) (hook : Bool)
    (h : Call.Destroy_Patricia hook ∉ w.calls) :
    Call.Destroy_Patricia hook ∉ (p_add argv w).world.calls := by
  by_cases h1 : argv.length > 2 ∨ argv.length < 1
  · simp only [p_add, h1, if_true, Outcome.world]; exact h
  · cases hs : STR2CSTR (argv.getD 0 .Qnil) with
    | none => simp only [p_add, h1, if_false, hs, Outcome.world]; exact h
    | some text =>
      cases hp : ascii2prefix text <;>
        simp only [p_add, h1, if_false, hs, hp, Outcome.world, World.call] <;>
        simp [h]

theorem p_remove_no_destroy (key : VALUE) (w : World) (hook : Bool)
    (h : Call.Destroy_Patricia hook ∉ w.calls) :
    Call.Destroy_Patricia hook ∉ (p_remove key w).world.calls := by
  cases hs : STR2CSTR key with
  | none => simp only [p_remove, hs, Outcome.world]; exact h
  | some text =>
    cases hp : ascii2prefix text with
    | none => simp [p_remove, hs, hp, Outcome.world, World.call, h]
    | some p =>
      cases hn : patricia_search_exact w.tree p <;>
        simp [p_remove, hs, hp, hn, Outcome.world, World.call, h]

theorem p_match_no_destroy (key : VALUE) (w : World) (hook : Bool)
    (h : Call.Destroy_Patricia hook ∉ w.calls) :
    Call.Destroy_Patricia hook ∉ (p_match key w).world.calls := by
  cases hs : STR2CSTR key with
  | none => simp only [p_match, hs, Outcome.world]; exact h
  | some text =>
    cases hp : ascii2prefix text with
    | none => simp [p_match, hs, hp, Outcome.world, World.call, h]
    | some p =>
      cases hn : patricia_search_best w.tree p <;>
        simp [p_match, hs, hp, hn, Outcome.world, World.call, h]

theorem p_match_exact_no_destroy (key : VALUE) (w : World) (hook : Bool)
    (h : Call.Destroy_Patricia hook ∉ w.calls) :
    Call.Destroy_Patricia hook ∉ (p_match_exact key w).world.calls := by
  cases hs : STR2CSTR key with
  | none => simp only [p_match_exact, hs, Outcome.world]; exact h
  | some text =>
    cases hp : ascii2prefix text with
    | none => simp [p_match_exact, hs, hp, Outcome.world, World.call, h]
    | some p =>
      cases hn : patricia_search_exact w.tree p <;>
        simp [p_match_exact, hs, hp, hn, Outcome.world, World.call, h]

theorem p_data_no_destroy (self : VALUE) (w : World) (hook : Bool)
    (h : Call.Destroy_Patricia hook ∉ w.calls) :
    Call.Destroy_Patricia hook ∉ (p_data self w).world.calls := by
  cases self <;> try (simp only [p_data, Outcome.world]; exact h)
  rename_i ptr
  cases hf : w.tree.head.find ptr with
  | none => simp only [p_data, hf, Outcome.world]; exact h
  | some n =>
    simp only [p_data, hf]
    split_ifs <;> simp only [Outcome.world] <;> exact h

/-! ## Properties of the adapter -/

/-- C1 (longest-prefix match).  After any run of `add` calls with valid keys on a new tree,
`match_best` on a valid query key returns the wrapped node of an added prefix that is a
prefix of (or equal to) the query and is at least as long as every added prefix of the
query; it returns `Qfalse` exactly when no added prefix is a prefix of the query. -/
theorem match_best_longest_match (adds : List (VALUE × VALUE)) (key : VALUE) (q : Prefix)
    (hadds : ∀ a ∈ adds, (prefix_of_key a.1).isSome) (hq : prefix_of_key key = some q) :
    longest_match (added adds) q (add_all adds p_new)
      (p_match key (add_all adds p_new)).value ∧
    ((p_match key (add_all adds p_new)).value = some .Qfalse ↔
      ∀ p ∈ added adds, is_prefix_of p q = false) := by
  obtain ⟨hwf, hmem⟩ := add_all_spec adds hadds p_new_wf
  have hst : ∀ p, p ∈ (add_all adds p_new).stored ↔ p ∈ added adds := by
    intro p
    rw [hmem p]
    simp [World.stored, p_new, New_Patricia, PNode.prefixes]
  have hm := longest_match_congr hst (p_match_spec hwf hq).1
  refine ⟨hm, ?_⟩
  generalize (p_match key (add_all adds p_new)).value = v at hm
  constructor
  · intro e
    rw [e] at hm
    exact hm
  · intro hno
    unfold longest_match at hm
    split at hm
    · obtain ⟨pb, _, _, h2, h3, _⟩ := hm
      rw [hno pb h2] at h3
      cases h3
    · rfl
    · exact hm.elim

/-- Witness of C1: after `add("10.0.0.0/8")` and `add("10.1.0.0/16")`,
`match_best("10.1.2.3/32")` returns the node of 10.1.0.0/16. -/
theorem match_best_longest_match_witness :
    (p_match (.str 9 "10.1.2.3/32")
      (add_all [(.str 1 "10.0.0.0/8", .str 2 "a"), (.str 3 "10.1.0.0/16", .str 4 "b")]
        p_new)).value = some (.node 1) ∧
    (add_all [(.str 1 "10.0.0.0/8", .str 2 "a"), (.str 3 "10.1.0.0/16", .str 4 "b")]
      p_new).tree.head.find 1 = some (some ⟨167837696, 16⟩, some (.str 1 "b")) ∧
    longest_match
      (added [(.str 1 "10.0.0.0/8", .str 2 "a"), (.str 3 "10.1.0.0/16", .str 4 "b")])
      ⟨167838211, 32⟩
      (add_all [(.str 1 "10.0.0.0/8", .str 2 "a"), (.str 3 "10.1.0.0/16", .str 4 "b")] p_new)
      (p_match (.str 9 "10.1.2.3/32")
        (add_all [(.str 1 "10.0.0.0/8", .str 2 "a"), (.str 3 "10.1.0.0/16", .str 4 "b")]
          p_new)).value :=
  ⟨by decide, by decide,
    (match_best_longest_match
      [(.str 1 "10.0.0.0/8", .str 2 "a"), (.str 3 "10.1.0.0/16", .str 4 "b")]
      (.str 9 "10.1.2.3/32") ⟨167838211, 32⟩ (by decide) (by decide)).1⟩

/-- Counterexample to C2: on the malformed text "10.0.0.256/8" each of `add`, `remove`,
`match_best` and `match_exact` enters its trie operation with the failed (null) parse
result, and none of them reports a format error. -/
theorem format_error_counterexample :
    ascii2prefix "10.0.0.256/8" = none ∧
    p_add [.str 0 "10.0.0.256/8", .str 1 "x"] p_new =
      .undefined ((p_new.call (Call.ascii2prefix "10.0.0.256/8")).call
        (Call.patricia_lookup none)) ∧
    p_remove (.str 0 "10.0.0.256/8") p_new =
      .undefined ((p_new.call (Call.ascii2prefix "10.0.0.256/8")).call
        (Call.patricia_search_exact none)) ∧
    p_match (.str 0 "10.0.0.256/8") p_new =
      .undefined ((p_new.call (Call.ascii2prefix "10.0.0.256/8")).call
        (Call.patricia_search_best none)) ∧
    p_match_exact (.str 0 "10.0.0.256/8") p_new =
      .undefined ((p_new.call (Call.ascii2prefix "10.0.0.256/8")).call
        (Call.patricia_search_exact none)) := by
  decide

/-- C2 as amended.  For every key whose text, read as the C string the adapter passes on
(the content up to its first NUL byte), is no well-formed prefix, each of `add`, `remove`,
`match_best` and `match_exact` parses the text and passes the failed parse result unchecked
to its trie operation (`patricia_lookup`, `patricia_search_exact`, `patricia_search_best`,
`patricia_search_exact`); up to that call the tree is untouched, and the adapter itself
reports no format error. -/
theorem failed_parse_passed_to_trie (oid : Nat) (text : String) (rest : List VALUE) (w : World)
    (hlen : rest.length ≤ 1) (h : ascii2prefix (c_string text) = none) :
    p_add (.str oid text :: rest) w =
      .undefined ((w.call (Call.ascii2prefix (c_string text))).call (Call.patricia_lookup none)) ∧
    p_remove (.str oid text) w =
      .undefined ((w.call (Call.ascii2prefix (c_string text))).call (Call.patricia_search_exact none)) ∧
    p_match (.str oid text) w =
      .undefined ((w.call (Call.ascii2prefix (c_string text))).call (Call.patricia_search_best none)) ∧
    p_match_exact (.str oid text) w =
      .undefined ((w.call (Call.ascii2prefix (c_string text))).call (Call.patricia_search_exact none)) ∧
    ((w.call (Call.ascii2prefix (c_string text))).call (Call.patricia_lookup none)).tree = w.tree ∧
    ((w.call (Call.ascii2prefix (c_string text))).call (Call.patricia_search_exact none)).tree = w.tree ∧
    ((w.call (Call.ascii2prefix (c_string text))).call (Call.patricia_search_best none)).tree = w.tree := by
  have h1 : ¬ ((VALUE.str oid text :: rest).length > 2 ∨
      (VALUE.str oid text :: rest).length < 1) := by
    simp only [List.length_cons]; omega
  refine ⟨?_, ?_, ?_, ?_, rfl, rfl, rfl⟩
  · simp only [p_add, h1, if_false, List.getD_cons_zero, STR2CSTR, h]
  · simp only [p_remove, STR2CSTR, h]
  · simp only [p_match, STR2CSTR, h]
  · simp only [p_match_exact, STR2CSTR, h]

/-- Witness of the amended C2 on a tree that holds 10.0.0.0/8, at a key whose C string is
"10.0.0.0/33"; the characters after the NUL are not read, as in the valid key
"10.0.0.0/8" followed by a NUL and more text. -/
theorem failed_parse_passed_to_trie_witness :
    c_string "10.0.0.0/33\x00/8" = "10.0.0.0/33" ∧
    prefix_of_key (.str 6 "10.0.0.0/8\x00zz") = some ⟨167772160, 8⟩ ∧
    p_add [.str 5 "10.0.0.0/33\x00/8"] (add_all [(.str 1 "10.0.0.0/8", .str 2 "a")] p_new) =
      .undefined (((add_all [(.str 1 "10.0.0.0/8", .str 2 "a")] p_new).call
        (Call.ascii2prefix (c_string "10.0.0.0/33\x00/8"))).call (Call.patricia_lookup none)) :=
  ⟨by decide, by decide,
    (failed_parse_passed_to_trie 5 "10.0.0.0/33\x00/8" []
      (add_all [(.str 1 "10.0.0.0/8", .str 2 "a")] p_new) (by decide) (by decide)).1⟩

/-- C3 (idempotent insert).  In a well-formed tree, `add(p, d1)` followed by `add(p, d2)`
returns the same trie node both times, leaves exactly one data node for `p`, whose payload
is `d2` (a string as a duplicate), and `num_nodes` after the second `add` equals `num_nodes`
after the first. -/
theorem add_twice_same_node (w : World) (hw : w.wf) (k1 k2 d1 d2 : VALUE) (p : Prefix)
    (h1 : prefix_of_key k1 = some p) (h2 : prefix_of_key k2 = some p) :
    ∃ i v, (p_add [k1, d1] w).value = some (.node i) ∧
      (p_add [k2, d2] (p_add [k1, d1] w).world).value = some (.node i) ∧
      (p_add [k2, d2] (p_add [k1, d1] w).world).world.stored.count p = 1 ∧
      (∀ j, (p_add [k2, d2] (p_add [k1, d1] w).world).world.tree.head.holds j p → j = i) ∧
      (p_add [k2, d2] (p_add [k1, d1] w).world).world.tree.head.find i =
        some (some p, some v) ∧
      is_copy_of v d2 ∧
      (p_num_nodes (p_add [k2, d2] (p_add [k1, d1] w).world).world).value =
        (p_num_nodes (p_add [k1, d1] w).world).value := by
  obtain ⟨i1, _, v1, _, wf1, mem1, holds1, _, _, _, _⟩ := p_add_spec hw h1 [d1] (by simp)
  obtain ⟨i2, _, v2, _, wf2, mem2, holds2, find2, _, _, same2⟩ :=
    p_add_spec wf1 h2 [d2] (by simp)
  have e : i2 = i1 := same2 i1 (search_exact_of_holds wf1.1 holds1)
  subst e
  have hin1 : p ∈ (p_add [k1, d1] w).world.stored := (mem1 p).mpr (Or.inl rfl)
  have hin2 : p ∈ (p_add [k2, d2] (p_add [k1, d1] w).world).world.stored :=
    (mem2 p).mpr (Or.inl rfl)
  refine ⟨i2, _, v1, v2, List.count_eq_one_of_mem (World.stored_nodup wf2) hin2, ?_, find2,
    is_copy_of_kept_two k2 d2 _, ?_⟩
  · intro j hj
    exact Inv.holds_unique wf2.1 hj holds2
  · rw [p_num_nodes_value, p_num_nodes_value]
    congr 2
    apply congrArg
    apply length_eq_of_mem_iff (World.stored_nodup wf2) (World.stored_nodup wf1)
    intro q
    rw [mem2 q]
    constructor
    · rintro (e | h)
      · rw [e]; exact hin1
      · exact h
    · exact fun h => Or.inr h

/-- Witness of C3: 10.1.0.0/16 added twice, with payloads "a" and "b", to a tree that holds
10.0.0.0/8. -/
theorem add_twice_same_node_witness :
    ∃ i v, (p_add [.str 3 "10.1.0.0/16", .str 4 "a"]
        (add_all [(.str 1 "10.0.0.0/8", .Qnil)] p_new)).value = some (.node i) ∧
      (p_add [.str 5 "10.1.9.9/16", .str 6 "b"] (p_add [.str 3 "10.1.0.0/16", .str 4 "a"]
        (add_all [(.str 1 "10.0.0.0/8", .Qnil)] p_new)).world).value = some (.node i) ∧
      (p_add [.str 5 "10.1.9.9/16", .str 6 "b"] (p_add [.str 3 "10.1.0.0/16", .str 4 "a"]
        (add_all [(.str 1 "10.0.0.0/8", .Qnil)] p_new)).world).world.stored.count
          ⟨167837696, 16⟩ = 1 ∧
      (∀ j, (p_add [.str 5 "10.1.9.9/16", .str 6 "b"] (p_add [.str 3 "10.1.0.0/16", .str 4 "a"]
        (add_all [(.str 1 "10.0.0.0/8", .Qnil)] p_new)).world).world.tree.head.holds j
          ⟨167837696, 16⟩ → j = i) ∧
      (p_add [.str 5 "10.1.9.9/16", .str 6 "b"] (p_add [.str 3 "10.1.0.0/16", .str 4 "a"]
        (add_all [(.str 1 "10.0.0.0/8", .Qnil)] p_new)).world).world.tree.head.find i =
          some (some ⟨167837696, 16⟩, some v) ∧
      is_copy_of v (.str 6 "b") ∧
      (p_num_nodes (p_add [.str 5 "10.1.9.9/16", .str 6 "b"]
        (p_add [.str 3 "10.1.0.0/16", .str 4 "a"]
          (add_all [(.str 1 "10.0.0.0/8", .Qnil)] p_new)).world).world).value =
        (p_num_nodes (p_add [.str 3 "10.1.0.0/16", .str 4 "a"]
          (add_all [(.str 1 "10.0.0.0/8", .Qnil)] p_new)).world).value :=
  add_twice_same_node (add_all [(.str 1 "10.0.0.0/8", .Qnil)] p_new)
    (add_all_spec [(.str 1 "10.0.0.0/8", .Qnil)] (by decide) p_new_wf).1
    (.str 3 "10.1.0.0/16") (.str 5 "10.1.9.9/16") (.str 4 "a") (.str 6 "b") ⟨167837696, 16⟩
    (by decide) (by decide)

theorem p_add_next_oid (w : World) {k : VALUE} {p : Prefix} (hk : prefix_of_key k = some p)
    (rest : List VALUE) (hlen : rest.length ≤ 1) :
    (p_add (k :: rest) w).world.next_oid = (kept_payload (k :: rest) w.next_oid).2 := by
  obtain ⟨oid, text, rfl, hp⟩ := prefix_of_key_some hk
  rw [p_add_eq w oid text rest p hlen hp]
  rfl

theorem p_data_value {w : World} {i : Nat} {pfx : Option Prefix} {v : VALUE}
    (h : w.tree.head.find i = some (pfx, some v)) :
    (p_data (.node i) w).value =
      some (if is_T_STRING v then (rb_obj_dup v w.next_oid).1 else v) := by
  simp only [p_data, h, Option.getD_some]
  split_ifs <;> rfl

/-- C4 (payload round trip).  In a well-formed tree, `add(p, d)` keeps for a string payload
a duplicate, a new string object with the same content, and for any other payload the object
itself.  The `data` accessor on the node returned by `add`, and on the node returned by
`match_exact(p)` (the same node), yields for a string again a new string object with the
same content, distinct from the stored one and from every object that existed before, and
for any other payload the object itself; reading leaves the tree, and so the stored
payload, as it was. -/
theorem data_round_trip (w : World) (hw : w.wf) (k k' d : VALUE) (p : Prefix)
    (hk : prefix_of_key k = some p) (hk' : prefix_of_key k' = some p) :
    ∃ i stored_value, (p_add [k, d] w).value = some (.node i) ∧
      (p_match_exact k' (p_add [k, d] w).world).value = some (.node i) ∧
      (p_add [k, d] w).world.tree.head.find i = some (some p, some stored_value) ∧
      is_dup_of stored_value d w.next_oid ∧
      (∀ o s, d = .str o s → o < w.next_oid → stored_value ≠ d) ∧
      (∃ v, (p_data (.node i) (p_add [k, d] w).world).value = some v ∧ is_copy_of v d ∧
        is_dup_of v d (p_add [k, d] w).world.next_oid ∧
        (is_T_STRING d = true → v ≠ stored_value) ∧
        (∀ o s, d = .str o s → o < w.next_oid → v ≠ d)) ∧
      (∃ v, (p_data (.node i) (p_match_exact k' (p_add [k, d] w).world).world).value = some v ∧
        is_copy_of v d ∧
        is_dup_of v d (p_match_exact k' (p_add [k, d] w).world).world.next_oid ∧
        (is_T_STRING d = true → v ≠ stored_value) ∧
        (∀ o s, d = .str o s → o < w.next_oid → v ≠ d)) ∧
      (p_data (.node i) (p_add [k, d] w).world).world.tree = (p_add [k, d] w).world.tree ∧
      (p_data (.node i) (p_add [k, d] w).world).world.tree.head.find i =
        some (some p, some stored_value) := by
  obtain ⟨i, _, v1, _, wf1, _, holds1, find1, _, _, _⟩ := p_add_spec hw hk [d] (by simp)
  obtain ⟨_, m2, m3, m4⟩ := p_match_exact_spec wf1 hk'
  have hn := p_add_next_oid w hk [d] (by simp)
  obtain ⟨_, _, _, a3, a4⟩ := p_data_spec find1
  have find2 : (p_match_exact k' (p_add [k, d] w).world).world.tree.head.find i =
      some (some p, some (kept_payload [k, d] w.next_oid).1) := by
    rw [m3]; exact find1
  have val1 := p_data_value find1
  have val2 := p_data_value find2
  rw [m4] at val2
  refine ⟨i, _, v1, m2 i holds1, find1, ?_, ?_, ⟨_, val1, ?_⟩, ⟨_, val2, ?_⟩, a3, a4⟩
  · cases d <;> simp [kept_payload, is_T_STRING, rb_obj_dup, is_dup_of]
  · intro o s hd ho
    subst hd
    simp only [kept_payload, List.length_cons, List.length_nil, if_true, List.getD_cons_succ,
      List.getD_cons_zero, is_T_STRING, rb_obj_dup, ne_eq, VALUE.str.injEq, not_and]
    intro e; omega
  · rw [hn]
    cases d <;> simp [kept_payload, is_T_STRING, rb_obj_dup, is_dup_of, is_copy_of]
    omega
  · rw [m4, hn]
    cases d <;> simp [kept_payload, is_T_STRING, rb_obj_dup, is_dup_of, is_copy_of]
    omega

/-- Witness of C4: the string payload "route-a", an object that exists already, added under
192.168.1.0/24 to a tree that holds 10.0.0.0/8: a new string is stored, and `data` returns
another new string, both with the content "route-a". -/
theorem data_round_trip_witness :
    (p_add [.str 12 "192.168.1.0/24", .str 0 "route-a"]
      (add_all [(.str 10 "10.0.0.0/8", .str 11 "x")] p_new)).world.tree.head.find 1 =
      some (some ⟨3232235776, 24⟩, some (.str 1 "route-a")) ∧
    (p_data (.node 1) (p_add [.str 12 "192.168.1.0/24", .str 0 "route-a"]
      (add_all [(.str 10 "10.0.0.0/8", .str 11 "x")] p_new)).world).value =
      some (.str 2 "route-a") ∧
    ∃ i stored_value v,
      (p_add [.str 12 "192.168.1.0/24", .str 0 "route-a"]
        (add_all [(.str 10 "10.0.0.0/8", .str 11 "x")] p_new)).value = some (.node i) ∧
      (p_match_exact (.str 13 "192.168.1.77/24")
        (p_add [.str 12 "192.168.1.0/24", .str 0 "route-a"]
          (add_all [(.str 10 "10.0.0.0/8", .str 11 "x")] p_new)).world).value =
        some (.node i) ∧
      (p_add [.str 12 "192.168.1.0/24", .str 0 "route-a"]
        (add_all [(.str 10 "10.0.0.0/8", .str 11 "x")] p_new)).world.tree.head.find i =
        some (some ⟨3232235776, 24⟩, some stored_value) ∧
      is_dup_of stored_value (.str 0 "route-a")
        (add_all [(.str 10 "10.0.0.0/8", .str 11 "x")] p_new).next_oid ∧
      stored_value ≠ .str 0 "route-a" ∧
      (p_data (.node i) (p_add [.str 12 "192.168.1.0/24", .str 0 "route-a"]
        (add_all [(.str 10 "10.0.0.0/8", .str 11 "x")] p_new)).world).value = some v ∧
      v ≠ stored_value ∧ v ≠ .str 0 "route-a" := by
  refine ⟨by decide, by decide, ?_⟩
  obtain ⟨i, stored_value, h1, h2, h3, h4, h5, ⟨v, h6, _, _, h7, h8⟩, _, _, _⟩ :=
    data_round_trip (add_all [(.str 10 "10.0.0.0/8", .str 11 "x")] p_new)
      (add_all_spec [(.str 10 "10.0.0.0/8", .str 11 "x")] (by decide) p_new_wf).1
      (.str 12 "192.168.1.0/24") (.str 13 "192.168.1.77/24") (.str 0 "route-a")
      ⟨3232235776, 24⟩ (by decide) (by decide)
  exact ⟨i, stored_value, v, h1, h2, h3, h4, h5 0 "route-a" rfl (by decide), h6, h7 rfl,
    h8 0 "route-a" rfl (by decide)⟩

/-- C5 (removal of an absent prefix).  In a well-formed tree and for a valid key,
`remove(k)` returns `Qtrue` if and only if the prefix of `k` is stored before the call, and
`Qfalse` otherwise; when it returns `Qfalse` the tree is unchanged and `patricia_remove` is
not among the calls made; when it returns `Qtrue` a following `match_exact(k)` returns
`Qfalse`. -/
theorem remove_reports_absence (w : World) (hw : w.wf) (k k' : VALUE) (p : Prefix)
    (hk : prefix_of_key k = some p) (hk' : prefix_of_key k' = some p) :
    ((p_remove k w).value = some .Qtrue ↔ p ∈ w.stored) ∧
    ((p_remove k w).value = some .Qfalse ↔ p ∉ w.stored) ∧
    ((p_remove k w).value = some .Qfalse →
      (p_remove k w).world.tree = w.tree ∧
      ∀ i, Call.patricia_remove i ∉ (p_remove k w).world.calls.drop w.calls.length) ∧
    ((p_remove k w).value = some .Qtrue →
      (p_match_exact k' (p_remove k w).world).value = some .Qfalse) := by
  obtain ⟨text, _, wf1, _, _, hin, hout⟩ := p_remove_spec hw hk
  by_cases hp : p ∈ w.stored
  · obtain ⟨v, _, mem⟩ := hin hp
    have hgone : p ∉ (p_remove k w).world.stored := fun h => ((mem p).mp h).2 rfl
    refine ⟨⟨fun _ => hp, fun _ => v⟩, ⟨fun e => ?_, fun h => absurd hp h⟩, fun e => ?_,
      fun _ => (p_match_exact_spec wf1 hk').1 hgone⟩
    · rw [v] at e; cases e
    · rw [v] at e; cases e
  · obtain ⟨v, t, c⟩ := hout hp
    refine ⟨⟨fun e => ?_, fun h => absurd h hp⟩, ⟨fun _ => hp, fun _ => v⟩,
      fun _ => ⟨t, fun i => ?_⟩, fun e => ?_⟩
    · rw [v] at e; cases e
    · rw [c, List.drop_left]
      simp
    · rw [v] at e; cases e

/-- Witness of C5: `remove("10.2.0.0/16")` on a tree that holds only 10.0.0.0/8. -/
theorem remove_reports_absence_witness :
    (p_remove (.str 3 "10.2.0.0/16")
      (add_all [(.str 1 "10.0.0.0/8", .Qnil)] p_new)).value = some .Qfalse ∧
    (p_remove (.str 3 "10.2.0.0/16")
      (add_all [(.str 1 "10.0.0.0/8", .Qnil)] p_new)).world.tree =
      (add_all [(.str 1 "10.0.0.0/8", .Qnil)] p_new).tree :=
  ⟨((remove_reports_absence (add_all [(.str 1 "10.0.0.0/8", .Qnil)] p_new)
      (add_all_spec [(.str 1 "10.0.0.0/8", .Qnil)] (by decide) p_new_wf).1
      (.str 3 "10.2.0.0/16") (.str 3 "10.2.0.0/16") ⟨167903232, 16⟩
      (by decide) (by decide)).2.1).mpr (by decide),
    by decide⟩

/-- C6 (remove and reinsert).  In a well-formed tree that holds the prefix `p`, `remove(p)`
returns `Qtrue`, and after the following `add(p, d)` `match_exact(p)` succeeds again and
`num_nodes` is what it was before the `remove`. -/
theorem remove_then_add (w : World) (hw : w.wf) (k1 k2 k3 d : VALUE) (p : Prefix)
    (h1 : prefix_of_key k1 = some p) (h2 : prefix_of_key k2 = some p) (h3 : prefix_of_key k3 = some p)
    (hin : p ∈ w.stored) :
    (p_remove k1 w).value = some .Qtrue ∧
    (∃ i, (p_match_exact k3 (p_add [k2, d] (p_remove k1 w).world).world).value =
      some (.node i)) ∧
    (p_num_nodes (p_add [k2, d] (p_remove k1 w).world).world).value =
      (p_num_nodes w).value := by
  obtain ⟨_, _, wf1, _, _, hrm, _⟩ := p_remove_spec hw h1
  obtain ⟨v, _, mem1⟩ := hrm hin
  obtain ⟨i, _, _, _, wf2, mem2, holds2, _, _, _, _⟩ := p_add_spec wf1 h2 [d] (by simp)
  refine ⟨v, ⟨i, (p_match_exact_spec wf2 h3).2.1 i holds2⟩, ?_⟩
  rw [p_num_nodes_value, p_num_nodes_value]
  congr 2
  apply congrArg
  apply length_eq_of_mem_iff (World.stored_nodup wf2) (World.stored_nodup hw)
  intro q
  rw [mem2 q, mem1 q]
  constructor
  · rintro (e | h)
    · rw [e]; exact hin
    · exact h.1
  · intro h
    by_cases e : q = p
    · exact Or.inl e
    · exact Or.inr ⟨h, e⟩

/-- Witness of C6: 10.1.0.0/16 removed from, and added again to, a tree that holds
10.0.0.0/8, 10.1.0.0/16 and 192.168.1.0/24. -/
theorem remove_then_add_witness :
    (p_remove (.str 7 "10.1.0.0/16") (add_all [(.str 1 "10.0.0.0/8", .Qnil),
      (.str 2 "10.1.0.0/16", .Qnil), (.str 3 "192.168.1.0/24", .Qnil)] p_new)).value =
        some .Qtrue ∧
    (∃ i, (p_match_exact (.str 9 "10.1.0.0/16") (p_add [.str 8 "10.1.0.0/16", .obj 5]
      (p_remove (.str 7 "10.1.0.0/16") (add_all [(.str 1 "10.0.0.0/8", .Qnil),
        (.str 2 "10.1.0.0/16", .Qnil), (.str 3 "192.168.1.0/24", .Qnil)]
          p_new)).world).world).value = some (.node i)) ∧
    (p_num_nodes (p_add [.str 8 "10.1.0.0/16", .obj 5]
      (p_remove (.str 7 "10.1.0.0/16") (add_all [(.str 1 "10.0.0.0/8", .Qnil),
        (.str 2 "10.1.0.0/16", .Qnil), (.str 3 "192.168.1.0/24", .Qnil)]
          p_new)).world).world).value =
      (p_num_nodes (add_all [(.str 1 "10.0.0.0/8", .Qnil),
        (.str 2 "10.1.0.0/16", .Qnil), (.str 3 "192.168.1.0/24", .Qnil)] p_new)).value :=
  remove_then_add (add_all [(.str 1 "10.0.0.0/8", .Qnil),
      (.str 2 "10.1.0.0/16", .Qnil), (.str 3 "192.168.1.0/24", .Qnil)] p_new)
    (add_all_spec [(.str 1 "10.0.0.0/8", .Qnil),
      (.str 2 "10.1.0.0/16", .Qnil), (.str 3 "192.168.1.0/24", .Qnil)] (by decide)
      p_new_wf).1
    (.str 7 "10.1.0.0/16") (.str 8 "10.1.0.0/16") (.str 9 "10.1.0.0/16") (.obj 5)
    ⟨167837696, 16⟩ (by decide) (by decide) (by decide) (by decide)

/-- Counterexample to C7: on a new, empty tree `num_nodes` starts `patricia_walk_inorder`
on the null head, and `show_nodes` starts `PATRICIA_WALK` on it. -/
theorem walk_on_null_root_counterexample :
    p_new.tree.head = .null ∧
    Call.patricia_walk_inorder .null ∈ (p_num_nodes p_new).world.calls ∧
    Call.PATRICIA_WALK .null ∈ (p_print_nodes p_new).world.calls := by
  decide

/-- C7 as amended.  On a well-formed tree that holds no prefix (new, or emptied by removals)
the head is null, `num_nodes` returns 0 and `show_nodes` returns `Qtrue` having printed
nothing; both hand the null head to the walk, which makes zero visits. -/
theorem empty_tree_traversal (w : World) (hw : w.wf) (he : w.stored = []) :
    w.tree.head = .null ∧
    p_num_nodes w = .ret (.fixnum 0) (w.call (Call.patricia_walk_inorder .null)) ∧
    p_print_nodes w = .ret .Qtrue (w.call (Call.PATRICIA_WALK .null)) ∧
    PATRICIA_WALK w.tree.head = [] := by
  have hnull : w.tree.head = .null := Inv.eq_null_of_prefixes hw.1 he
  refine ⟨hnull, ?_, ?_, ?_⟩
  · simp only [p_num_nodes, hnull, patricia_walk_inorder, walk_inorder, List.length_nil]
    rfl
  · simp only [p_print_nodes, hnull, PATRICIA_WALK, walk_inorder, List.map_nil,
      List.append_nil, World.call]
  · simp only [hnull, PATRICIA_WALK, walk_inorder]

/-- Witness of the amended C7: the tree emptied by removing its only prefix. -/
theorem empty_tree_traversal_witness :
    (run_all [.add (.str 1 "10.0.0.0/8") .Qnil, .remove (.str 2 "10.0.0.0/8")]
      p_new).tree.head = .null ∧
    p_num_nodes (run_all [.add (.str 1 "10.0.0.0/8") .Qnil, .remove (.str 2 "10.0.0.0/8")]
      p_new) =
      .ret (.fixnum 0)
        ((run_all [.add (.str 1 "10.0.0.0/8") .Qnil, .remove (.str 2 "10.0.0.0/8")]
          p_new).call (Call.patricia_walk_inorder .null)) ∧
    p_print_nodes (run_all [.add (.str 1 "10.0.0.0/8") .Qnil, .remove (.str 2 "10.0.0.0/8")]
      p_new) =
      .ret .Qtrue
        ((run_all [.add (.str 1 "10.0.0.0/8") .Qnil, .remove (.str 2 "10.0.0.0/8")]
          p_new).call (Call.PATRICIA_WALK .null)) ∧
    PATRICIA_WALK (run_all [.add (.str 1 "10.0.0.0/8") .Qnil, .remove (.str 2 "10.0.0.0/8")]
      p_new).tree.head = [] :=
  empty_tree_traversal
    (run_all [.add (.str 1 "10.0.0.0/8") .Qnil, .remove (.str 2 "10.0.0.0/8")] p_new)
    (run_all_spec [.add (.str 1 "10.0.0.0/8") .Qnil, .remove (.str 2 "10.0.0.0/8")]
      (by decide) p_new_wf [] List.nodup_nil (fun q => Iff.rfl)).1
    (by decide)

/-- C8 (traversal completeness).  After any sequence of `add` and `remove` calls with valid
keys on a new tree, `num_nodes` is the number of distinct prefixes then in the tree (glue
nodes do not count), and the walk of `show_nodes` visits exactly those prefixes, each once,
printing one line for each visit. -/
theorem traversal_completeness (ops : List Op)
    (hops : ∀ o ∈ ops, (prefix_of_key o.key).isSome) :
    (p_num_nodes (run_all ops p_new)).value = some (.fixnum ((tracked ops).length : Nat)) ∧
    (tracked ops).Nodup ∧
    ((PATRICIA_WALK (run_all ops p_new).tree.head).map Prod.fst).Perm (tracked ops) ∧
    (p_print_nodes (run_all ops p_new)).world.out = (run_all ops p_new).out ++
      (PATRICIA_WALK (run_all ops p_new).tree.head).map fun n => node_line n.1 := by
  obtain ⟨hwf, hnd, hmem⟩ := run_all_spec ops hops p_new_wf [] List.nodup_nil
    (fun q => Iff.rfl)
  have hperm : (run_all ops p_new).stored.Perm (tracked ops) :=
    (List.perm_ext_iff_of_nodup (World.stored_nodup hwf) hnd).mpr hmem
  refine ⟨?_, hnd, ?_, rfl⟩
  · rw [p_num_nodes_value, hperm.length_eq]
  · have e : (PATRICIA_WALK (run_all ops p_new).tree.head).map Prod.fst =
        (run_all ops p_new).stored := walk_inorder_prefixes _
    rw [e]
    exact hperm

/-- Witness of C8: 10.0.0.0/8 and 192.168.1.0/24 fork at a glue node (three trie nodes),
172.16.0.0/12 is added and removed again; `num_nodes` is 2 and two lines are printed. -/
theorem traversal_completeness_witness :
    (p_num_nodes (run_all [.add (.str 1 "10.0.0.0/8") (.str 2 "a"),
      .add_key (.str 3 "192.168.1.0/24"), .add (.str 4 "172.16.0.0/12") .Qnil,
      .add (.str 5 "10.0.0.0/8") (.str 6 "b"), .remove (.str 7 "172.16.0.0/12")]
      p_new)).value = some (.fixnum 2) ∧
    (run_all [.add (.str 1 "10.0.0.0/8") (.str 2 "a"),
      .add_key (.str 3 "192.168.1.0/24"), .add (.str 4 "172.16.0.0/12") .Qnil,
      .add (.str 5 "10.0.0.0/8") (.str 6 "b"), .remove (.str 7 "172.16.0.0/12")]
      p_new).tree.head.ids.length = 3 ∧
    (p_print_nodes (run_all [.add (.str 1 "10.0.0.0/8") (.str 2 "a"),
      .add_key (.str 3 "192.168.1.0/24"), .add (.str 4 "172.16.0.0/12") .Qnil,
      .add (.str 5 "10.0.0.0/8") (.str 6 "b"), .remove (.str 7 "172.16.0.0/12")]
      p_new)).world.out = ["node: 10.0.0.0/8\n", "node: 192.168.1.0/24\n"] ∧
    ((PATRICIA_WALK (run_all [.add (.str 1 "10.0.0.0/8") (.str 2 "a"),
      .add_key (.str 3 "192.168.1.0/24"), .add (.str 4 "172.16.0.0/12") .Qnil,
      .add (.str 5 "10.0.0.0/8") (.str 6 "b"), .remove (.str 7 "172.16.0.0/12")]
      p_new).tree.head).map Prod.fst).Perm
      (tracked [.add (.str 1 "10.0.0.0/8") (.str 2 "a"),
        .add_key (.str 3 "192.168.1.0/24"), .add (.str 4 "172.16.0.0/12") .Qnil,
        .add (.str 5 "10.0.0.0/8") (.str 6 "b"), .remove (.str 7 "172.16.0.0/12")]) :=
  ⟨by decide, by decide, by decide,
    (traversal_completeness [.add (.str 1 "10.0.0.0/8") (.str 2 "a"),
      .add_key (.str 3 "192.168.1.0/24"), .add (.str 4 "172.16.0.0/12") .Qnil,
      .add (.str 5 "10.0.0.0/8") (.str 6 "b"), .remove (.str 7 "172.16.0.0/12")]
      (by decide)).2.2.1⟩

/-- C9 (`destroy` is a no-op).  `destroy` and `clear` are both registered to `p_destroy`,
which returns `Qtrue` and leaves the world as it was, so `num_nodes` and every `match_best`
and `match_exact` query answer as before; the teardown `Destroy_Patricia` is called by the
finalizer `p_tree_free`, with a null cleanup hook so that no payload is handed to a hook, and
by none of the tree and node methods. -/
theorem destroy_is_a_no_op :
    method_function "destroy" = some (.p_destroy, 0) ∧
    method_function "clear" = some (.p_destroy, 0) ∧
    (∀ w : World, p_destroy w = .ret .Qtrue w) ∧
    (∀ (w : World) (key : VALUE),
      p_num_nodes (p_destroy w).world = p_num_nodes w ∧
      p_match key (p_destroy w).world = p_match key w ∧
      p_match_exact key (p_destroy w).world = p_match_exact key w) ∧
    (∀ w : World, (p_tree_free w).calls = w.calls ++ [Call.Destroy_Patricia false] ∧
      (p_tree_free w).tree.head = .null ∧ (Destroy_Patricia w.tree false).2 = []) ∧
    (∀ (w : World) (hook : Bool) (argv : List VALUE) (key self : VALUE),
      Call.Destroy_Patricia hook ∉ w.calls →
      Call.Destroy_Patricia hook ∉ (p_destroy w).world.calls ∧
      Call.Destroy_Patricia hook ∉ (p_add argv w).world.calls ∧
      Call.Destroy_Patricia hook ∉ (p_remove key w).world.calls ∧
      Call.Destroy_Patricia hook ∉ (p_match key w).world.calls ∧
      Call.Destroy_Patricia hook ∉ (p_match_exact key w).world.calls ∧
      Call.Destroy_Patricia hook ∉ (p_num_nodes w).world.calls ∧
      Call.Destroy_Patricia hook ∉ (p_print_nodes w).world.calls ∧
      Call.Destroy_Patricia hook ∉ (p_data self w).world.calls) := by
  refine ⟨by decide, by decide, fun _ => rfl, fun _ _ => ⟨rfl, rfl, rfl⟩,
    fun _ => ⟨rfl, rfl, rfl⟩, ?_⟩
  intro w hook argv key self h
  refine ⟨h, p_add_no_destroy argv w hook h, p_remove_no_destroy key w hook h,
    p_match_no_destroy key w hook h, p_match_exact_no_destroy key w hook h, ?_, ?_,
    p_data_no_destroy self w hook h⟩
  · simp [p_num_nodes, Outcome.world, World.call, h]
  · simp [p_print_nodes, Outcome.world, World.call, h]

/-- Witness of C9: `destroy` on a tree that holds two prefixes keeps both, and the finalizer
then empties the tree through `Destroy_Patricia(tree, NULL)`. -/
theorem destroy_is_a_no_op_witness :
    (p_num_nodes (p_destroy (add_all [(.str 1 "10.0.0.0/8", .str 2 "a"),
      (.str 3 "10.1.0.0/16", .str 4 "b")] p_new)).world).value = some (.fixnum 2) ∧
    (p_tree_free (add_all [(.str 1 "10.0.0.0/8", .str 2 "a"),
      (.str 3 "10.1.0.0/16", .str 4 "b")] p_new)).tree.head = .null ∧
    Call.Destroy_Patricia false ∉ (p_add [.str 5 "10.2.0.0/16"] p_new).world.calls :=
  ⟨by decide, (destroy_is_a_no_op.2.2.2.2.1 _).2.1,
    (destroy_is_a_no_op.2.2.2.2.2 p_new false [.str 5 "10.2.0.0/16"] .Qnil .Qnil
      (by decide)).2.1⟩

/-- C10 (argument handling of `add`).  With fewer than one or more than two arguments `add`
returns `Qnil` and leaves the world as it was: no parse, no lookup, no payload write.  With
exactly one argument, a valid key, on a well-formed tree, the payload of the returned node is
a new empty string, and `data` on that node returns an empty string. -/
theorem add_argument_handling :
    (∀ (argv : List VALUE) (w : World), (argv.length < 1 ∨ argv.length > 2) →
      p_add argv w = .ret .Qnil w) ∧
    (∀ (w : World) (k : VALUE) (p : Prefix), w.wf → prefix_of_key k = some p →
      ∃ i, (p_add [k] w).value = some (.node i) ∧
        (p_add [k] w).world.tree.head.find i = some (some p, some (.str w.next_oid "")) ∧
        Call.PATRICIA_DATA_SET i (.str w.next_oid "") ∈ (p_add [k] w).world.calls ∧
        ∃ oid, (p_data (.node i) (p_add [k] w).world).value = some (.str oid "")) := by
  constructor
  · intro argv w h
    have h' : argv.length > 2 ∨ argv.length < 1 := h.symm
    simp only [p_add, h', if_true]
  · intro w k p hw hk
    obtain ⟨i, _, v, _, _, _, _, hfind, hcalls, _, _⟩ := p_add_spec hw hk [] (by simp)
    rw [kept_one] at hfind hcalls
    refine ⟨i, v, hfind, ?_, ?_⟩
    · rw [hcalls]; simp
    · obtain ⟨v', a1, a2, _, _⟩ := p_data_spec hfind
      obtain ⟨oid, rfl⟩ := a2
      exact ⟨oid, a1⟩

/-- Witness of C10: `add()` and `add(k, d, extra)` return `Qnil` and change nothing;
`add("10.0.0.0/8")` stores an empty string. -/
theorem add_argument_handling_witness :
    p_add [] p_new = .ret .Qnil p_new ∧
    p_add [.str 1 "10.0.0.0/8", .Qnil, .Qnil] p_new = .ret .Qnil p_new ∧
    ∃ i, (p_add [.str 1 "10.0.0.0/8"] p_new).value = some (.node i) ∧
      (p_add [.str 1 "10.0.0.0/8"] p_new).world.tree.head.find i =
        some (some ⟨167772160, 8⟩, some (.str p_new.next_oid "")) ∧
      Call.PATRICIA_DATA_SET i (.str p_new.next_oid "") ∈
        (p_add [.str 1 "10.0.0.0/8"] p_new).world.calls ∧
      ∃ oid, (p_data (.node i) (p_add [.str 1 "10.0.0.0/8"] p_new).world).value =
        some (.str oid "") :=
  ⟨add_argument_handling.1 [] p_new (by decide),
    add_argument_handling.1 [.str 1 "10.0.0.0/8", .Qnil, .Qnil] p_new (by decide),
    add_argument_handling.2 p_new (.str 1 "10.0.0.0/8") ⟨167772160, 8⟩ p_new_wf (by decide)⟩

end Rpatricia
